import Mathlib

/-
  Verification development for the pMapper cluster scheduler
  (src/Scheduler.cpp).

  The scheduler is single-threaded and event-driven: every entry point
  runs to completion before the next event is dispatched.  We therefore
  embed it as pure functions over an explicit scheduler state
  (the file-scope globals of Scheduler.cpp) together with a read-only
  environment describing the collaborator (machine descriptors, task
  attributes).  Outbound commands to the collaborator
  (Machine_SetState, VM_Create, VM_AddTask, ...) are recorded in a
  command log inside the state.

  Machine arithmetic: the C++ counters are unsigned 32-bit values; sums
  that can overflow are taken modulo 2^32, the guarded decrements are
  exact.  Time_t is unsigned 64-bit; the single subtraction on it is
  modelled with explicit wrap-around (usub64).  The double-precision
  memory-pressure ratio comparisons of PlaceTask_PMapper are abstracted
  behind a comparison oracle (RatioCmp): the executable model
  instantiates it with exact integer cross-multiplication, and the
  offload-target theorems are proved for every oracle having the
  properties that correctly rounded double division has on the 32-bit
  operands of the source (RatioCmpOK), so they do not depend on sub-ulp
  rounding behaviour.
-/

set_option maxRecDepth 4000
set_option linter.unusedVariables false
set_option linter.unnecessarySimpa false

namespace CloudSim

/-- Machine descriptor as returned by Machine_GetInfo. -/
structure MachineInfo where
  cpu : Nat
  s_state : Nat
  active_tasks : Nat
  active_vms : Nat
  memory_size : Nat
  memory_used : Nat

/-- Read-only collaborator interface: machine descriptors, task attributes,
energy metric, VM descriptor (machine id after migration), machine count. -/
structure Env where
  machineInfo : Nat → MachineInfo
  taskMem : Nat → Nat
  taskCPU : Nat → Nat
  taskVMType : Nat → Nat
  energy : Nat → Nat
  vmMachine : Nat → Nat
  total : Nat

/-- Outbound commands the scheduler issues to the collaborator. -/
inductive Cmd where
  | setState (m st : Nat)
  | vmCreate (vmType cpuType : Nat)
  | vmAttach (vm m : Nat)
  | vmAddTask (vm task prio : Nat)
  | vmRemoveTask (vm task : Nat)
  | vmShutdown (vm : Nat)
deriving DecidableEq

/-- The file-scope mutable state of Scheduler.cpp.  offloadCalls is a ghost
counter: it is bumped once per entry into OffloadTaskFromMachine and is read
by no scheduler decision. -/
@[ext] structure SchedState where
  sorted_machines : List Nat
  machine_util : Nat → Nat
  machine_mem_usage : Nat → Nat
  machine_mem_capacity : Nat → Nat
  vms : List Nat
  vm_location : Nat → Option Nat
  vm_tasks : Nat → List Nat
  offloading : Bool
  migrating : Bool
  next_vm : Nat
  idle_start : Nat → Option Nat
  cmds : List Cmd
  offloadCalls : Nat

def MAX_TASKS_PER_VM : Nat := 10
def IDLE_GRACE_PERIOD : Nat := 100000
/-- Power-state codes used by the scheduler (S0, S0i1, S5). -/
def S0 : Nat := 0
def S0i1 : Nat := 1
def S5 : Nat := 5
def HIGH_PRIORITY : Nat := 0
def MID_PRIORITY : Nat := 1
def LINUX : Nat := 0
/-- (MachineId_t)(-1), the sentinel passed by NewTask for original_machine. -/
def NO_MACHINE : Nat := 4294967295
def W32 : Nat := 4294967296
def W64 : Nat := 18446744073709551616

/-- Unsigned 64-bit subtraction with wrap-around (Time_t arithmetic). -/
def usub64 (a b : Nat) : Nat := (a % W64 + (W64 - b % W64)) % W64

/-- Pointwise map update (the only mutation on the per-machine arrays
and per-VM maps). -/
def upd {α : Type} (f : Nat → α) (k : Nat) (v : α) : Nat → α :=
  fun x => if x = k then v else f x

/-- Append one outbound command to the log. -/
def emit (s : SchedState) (c : Cmd) : SchedState :=
  { s with cmds := s.cmds ++ [c] }

/-- Write the offloading_in_progress guard. -/
def setOffloading (s : SchedState) (b : Bool) : SchedState := { s with offloading := b }

/-- Ghost instrumentation: count one entry into OffloadTaskFromMachine. -/
def bumpGhost (s : SchedState) : SchedState := { s with offloadCalls := s.offloadCalls + 1 }

/-- Priority heuristic of Scheduler.cpp: tasks 0 and 64 are HIGH_PRIORITY. -/
def priorityOf (t : Nat) : Nat :=
  if t = 0 ∨ t = 64 then HIGH_PRIORITY else MID_PRIORITY

/-- The 32-bit sum machine_mem_usage[m] + GetTaskMemory(task) used both in
the admission check and in the committed update. -/
def projectedMem (env : Env) (s : SchedState) (m task : Nat) : Nat :=
  (s.machine_mem_usage m + env.taskMem task) % W32

/-- MachineHasCapacity of Scheduler.cpp. -/
def MachineHasCapacity (s : SchedState) (m : Nat) : Bool :=
  decide (s.machine_util m < MAX_TASKS_PER_VM)

/-- Guarded decrement (a >= b) ? a - b : 0 used for memory bookkeeping. -/
def clampSub (a b : Nat) : Nat := if b ≤ a then a - b else 0

/-- Commit of a task onto an existing VM v hosted on machine m
(the first inner branch of PlaceTask_PMapper). -/
def commitReuse (env : Env) (task prio m v : Nat) (s : SchedState) : SchedState :=
  { s with
    cmds := s.cmds ++ [Cmd.vmAddTask v task prio],
    vm_tasks := upd s.vm_tasks v (s.vm_tasks v ++ [task]),
    machine_util := upd s.machine_util m (s.machine_util m + 1),
    machine_mem_usage := upd s.machine_mem_usage m (projectedMem env s m task) }

/-- Commit of a task onto a freshly created VM on machine m
(the second inner branch of PlaceTask_PMapper). -/
def commitNew (env : Env) (task prio m : Nat) (s : SchedState) : SchedState :=
  { s with
    cmds := s.cmds ++ [Cmd.vmCreate (env.taskVMType task) (env.taskCPU task),
                       Cmd.vmAttach s.next_vm m,
                       Cmd.vmAddTask s.next_vm task prio],
    vm_location := upd s.vm_location s.next_vm (some m),
    vms := s.vms ++ [s.next_vm],
    vm_tasks := upd s.vm_tasks s.next_vm [task],
    machine_util := upd s.machine_util m (s.machine_util m + 1),
    machine_mem_usage := upd s.machine_mem_usage m (projectedMem env s m task),
    next_vm := s.next_vm + 1 }

/-- Predicate used to pick an existing VM on machine m with room
(first vm in vms order with vm_location[vm] == m and size < limit). -/
def vmFits (s : SchedState) (m v : Nat) : Bool :=
  ((s.vm_location v).getD 0 == m) && decide ((s.vm_tasks v).length < MAX_TASKS_PER_VM)

/-- The first step of the machine loop body: a machine observed in S5 gets
a Machine_SetState request to S0 (and is then still considered in the same
iteration, exactly as in the source). -/
def wake (env : Env) (m : Nat) (s : SchedState) : SchedState :=
  if (env.machineInfo m).s_state = S5 then emit s (Cmd.setState m S0) else s

/-- One scan of the machine loop inside PlaceTask_PMapper (a single
"attempt" body before the offload block).  Returns the updated state and
the VM chosen, if any. -/
def tryPlacePass (env : Env) (task prio orig : Nat) :
    List Nat → SchedState → SchedState × Option Nat
  | [], s => (s, none)
  | m :: rest, s =>
    let s1 := wake env m s
    if s1.machine_mem_capacity m < projectedMem env s1 m task then
      tryPlacePass env task prio orig rest s1
    else if (env.machineInfo m).cpu ≠ env.taskCPU task then
      tryPlacePass env task prio orig rest s1
    else if m = orig then
      tryPlacePass env task prio orig rest s1
    else if MachineHasCapacity s1 m then
      match s1.vms.find? (vmFits s1 m) with
      | some v => (commitReuse env task prio m v s1, some v)
      | none => (commitNew env task prio m s1, some s1.next_vm)
    else
      tryPlacePass env task prio orig rest s1

/-- Denominator of the memory-pressure ratio:
machine_mem_capacity[m] ? machine_mem_capacity[m] : 1. -/
def offloadDen (s : SchedState) (m : Nat) : Nat :=
  if s.machine_mem_capacity m = 0 then 1 else s.machine_mem_capacity m

/-- Oracle for the two double-precision comparisons of the offload-target
scan.  The source computes ratio = double(usage) / double(denominator) and
evaluates ratio > worst_ratio and ratio < 1.0 in IEEE-754 double precision;
worst_ratio always holds the rounded quotient of an earlier
(usage, denominator) pair (initially 0.0 = the quotient of (0, 1)), so both
comparisons are functions of two integer pairs.  Two distinct rationals of
32-bit operands can round to the same double, so the comparison is not
pinned to an exact semantics here; the target-selection theorems hold for
every oracle satisfying RatioCmpOK below. -/
structure RatioCmp where
  gt : Nat × Nat → Nat × Nat → Bool
  lt1 : Nat × Nat → Bool

/-- The comparison properties the target-selection proofs use.  Correctly
rounded double division of 32-bit unsigned operands satisfies all of them:
a zero numerator divides to exactly 0.0, which never compares strictly
above anything; a positive ratio of 32-bit operands is at least 2^-32, far
above the rounding thresholds at 0.0 and 1.0, so it compares above 0.0 and
rounds strictly below 1.0 exactly when numerator < denominator; and both
comparisons are induced by the real value of the rounded quotient, giving
the last two fields.  The exact rational comparison exactRatioCmp also
satisfies all of them. -/
def RatioCmpOK (cmp : RatioCmp) : Prop :=
  (∀ d w, 0 < d → cmp.gt (0, d) w = false) ∧
  (∀ n d, 0 < n → 0 < d → cmp.gt (n, d) (0, 1) = true) ∧
  (∀ n d, 0 < d → (cmp.lt1 (n, d) = true ↔ n < d)) ∧
  (∀ a b w, cmp.gt a w = false → cmp.gt b w = true → cmp.gt a b = false) ∧
  (∀ a, cmp.gt a a = false)

/-- Scan for the offload target, with the ratio comparison abstracted: the
running worst ratio (a double in the source, initially 0.0) is represented
by the integer pair whose quotient the source variable holds; a machine is
taken over the running worst when its ratio compares strictly larger and
strictly below 1.0. -/
def selGoC (cmp : RatioCmp) (s : SchedState) :
    List Nat → Nat × Nat → Option Nat → Option Nat
  | [], _, tgt => tgt
  | m :: rest, w, tgt =>
    let n := s.machine_mem_usage m
    let d := offloadDen s m
    if cmp.gt (n, d) w && cmp.lt1 (n, d) then selGoC cmp s rest (n, d) (some m)
    else selGoC cmp s rest w tgt

/-- The exact rational instantiation of the comparison, by integer
cross-multiplication.  It is the executable stand-in for the double
comparison and agrees with it except possibly where two distinct ratios
lie within one double ulp of each other. -/
def exactRatioCmp : RatioCmp :=
  { gt := fun a b => decide (b.1 * a.2 < a.1 * b.2),
    lt1 := fun a => decide (a.1 < a.2) }

def selectOffloadTargetC (cmp : RatioCmp) (s : SchedState) : Option Nat :=
  selGoC cmp s s.sorted_machines (0, 1) none

/-- Offload-target selection block of PlaceTask_PMapper. -/
def selectOffloadTarget (s : SchedState) : Option Nat :=
  selectOffloadTargetC exactRatioCmp s

/-- State change performed when OffloadTaskFromMachine succeeds in
re-placing the task at position i of vm_tasks[vm]: VM_RemoveTask is issued,
the entry is erased at that position, and the tracked memory of the origin
machine is decremented with a clamp at zero. -/
def offloadEraseCommit (env : Env) (m vm i task : Nat) (s : SchedState) : SchedState :=
  { s with
    cmds := s.cmds ++ [Cmd.vmRemoveTask vm task],
    vm_tasks := upd s.vm_tasks vm ((s.vm_tasks vm).eraseIdx i),
    machine_mem_usage := upd s.machine_mem_usage m
      (clampSub (s.machine_mem_usage m) (env.taskMem task)) }

/-- Inner loop of OffloadTaskFromMachine over the task vector of one VM:
the iterator is modelled by an index into the live list; the fuel argument
is the length of the vector at loop entry. -/
def offloadTaskLoop (env : Env)
    (place : Nat → Nat → Nat → SchedState → SchedState × Option Nat)
    (m vm : Nat) : Nat → Nat → SchedState → SchedState × Bool
  | 0, _, s => (s, false)
  | fuel + 1, i, s =>
    match (s.vm_tasks vm).get? i with
    | none => (s, false)
    | some t =>
      let p := place t (priorityOf t) m s
      match p.2 with
      | some _ => (offloadEraseCommit env m vm i t p.1, true)
      | none => offloadTaskLoop env place m vm fuel (i + 1) p.1

/-- Outer loop of OffloadTaskFromMachine over the candidate VMs. -/
def offloadVMLoop (env : Env)
    (place : Nat → Nat → Nat → SchedState → SchedState × Option Nat)
    (m : Nat) : List Nat → SchedState → SchedState × Bool
  | [], s => (s, false)
  | vm :: rest, s =>
    let r := offloadTaskLoop env place m vm (s.vm_tasks vm).length 0 s
    if r.2 then r else offloadVMLoop env place m rest r.1

/-- Body of OffloadTaskFromMachine, parameterised by the placement function
used for the re-placement call (PlaceTask_PMapper in the source; the nested
recursion is resolved below with a fuel argument).  The candidate VMs are
the entries of vm_location hosted on m; the C++ unordered_map iteration
order is unspecified, we fix the vms creation order.  The ghost counter
offloadCalls is bumped on entry. -/
def OffloadBody (env : Env)
    (place : Nat → Nat → Nat → SchedState → SchedState × Option Nat)
    (m : Nat) (s : SchedState) : SchedState × Bool :=
  let cands := s.vms.filter (fun v => (s.vm_location v).getD 0 == m)
  offloadVMLoop env place m cands (bumpGhost s)

/-- The attempt loop of PlaceTask_PMapper (for attempt < max_attempts),
parameterised by the offload procedure.  On a failed pass: if an offload is
already in progress the loop breaks; otherwise the guard is set, a target
is selected, the offload is run, the guard is cleared, and the loop retries
only if the offload succeeded. -/
def placeAttempts (env : Env) (task prio orig : Nat)
    (offload : Nat → SchedState → SchedState × Bool) :
    Nat → SchedState → SchedState × Option Nat
  | 0, s => (s, none)
  | a + 1, s =>
    let r := tryPlacePass env task prio orig s.sorted_machines s
    match r.2 with
    | some v => (r.1, some v)
    | none =>
      if r.1.offloading then (r.1, none)
      else
        let s2 := setOffloading r.1 true
        match selectOffloadTarget s2 with
        | none => (setOffloading s2 false, none)
        | some tgt =>
          let q := offload tgt s2
          let s4 := setOffloading q.1 false
          if q.2 then placeAttempts env task prio orig offload a s4
          else (s4, none)

/-- PlaceTask_PMapper with an explicit recursion depth for the mutual
recursion with OffloadTaskFromMachine.  The offloading_in_progress guard
makes every placement reached through an offload take the break branch, so
the call tree has depth at most 3 from any entry point; fuel 3 therefore
computes the exact semantics (see PlaceTaskF_fuel_stable below). -/
def PlaceTaskF (env : Env) : Nat → Nat → Nat → Nat → SchedState → SchedState × Option Nat
  | 0, _, _, _, s => (s, none)
  | f + 1, task, prio, orig, s =>
    placeAttempts env task prio orig
      (fun m s0 => OffloadBody env (PlaceTaskF env f) m s0) 3 s

/-- PlaceTask_PMapper. -/
def PlaceTask_PMapper (env : Env) (task prio orig : Nat) (s : SchedState) :
    SchedState × Option Nat :=
  PlaceTaskF env 3 task prio orig s

/-- OffloadTaskFromMachine as called from MemoryWarning (the
offloading_in_progress guard is false there, so the nested placement is the
full PlaceTask_PMapper). -/
def OffloadTaskFromMachine (env : Env) (m : Nat) (s : SchedState) : SchedState × Bool :=
  OffloadBody env (fun t p o s0 => PlaceTask_PMapper env t p o s0) m s

namespace Scheduler

/-- SortMachinesByEnergy: all machine ids sorted by ascending energy.
std::sort with a strict comparator is modelled by insertion sort on the
non-strict relation; the resulting list is ascending either way and the
order among equal-energy machines is unspecified in the source. -/
def SortMachinesByEnergy (env : Env) : List Nat :=
  List.insertionSort (fun a b => env.energy a ≤ env.energy b) (List.range env.total)

def active_machines : Nat := 16

/-- Initialization loop: the first active_machines machines in energy order
each get a Machine_SetState(S0) and a fresh attached LINUX VM. -/
def InitGo (env : Env) : List Nat → SchedState → SchedState
  | [], s => s
  | m :: rest, s =>
    InitGo env rest
      { s with
        cmds := s.cmds ++ [Cmd.setState m S0,
                           Cmd.vmCreate LINUX (env.machineInfo m).cpu,
                           Cmd.vmAttach s.next_vm m],
        vm_location := upd s.vm_location s.next_vm (some m),
        vms := s.vms ++ [s.next_vm],
        vm_tasks := upd s.vm_tasks s.next_vm [],
        next_vm := s.next_vm + 1 }

/-- Scheduler::Init. -/
def Init (env : Env) : SchedState :=
  let sm := SortMachinesByEnergy env
  InitGo env (sm.take active_machines)
    { sorted_machines := sm,
      machine_util := fun _ => 0,
      machine_mem_usage := fun m =>
        if m < env.total then (env.machineInfo m).memory_used else 0,
      machine_mem_capacity := fun m =>
        if m < env.total then (env.machineInfo m).memory_size else 0,
      vms := [],
      vm_location := fun _ => none,
      vm_tasks := fun _ => [],
      offloading := false,
      migrating := false,
      next_vm := 0,
      idle_start := fun _ => none,
      cmds := [],
      offloadCalls := 0 }

/-- Scheduler::NewTask: place the task; on failure only an SLA-violation
message is logged. -/
def NewTask (env : Env) (now task : Nat) (s : SchedState) : SchedState :=
  (PlaceTask_PMapper env task (priorityOf task) NO_MACHINE s).1

/-- Scheduler::TaskComplete body: find the first VM whose task vector holds
the task, erase it there, and decrement the per-machine counters with their
lower-bound guards.  The source iterates the vm_tasks unordered_map, whose
entries are exactly the created VMs but whose order is unspecified; we fix
the VM creation order, and prove only order-independent properties of it. -/
def TaskCompleteGo (env : Env) (task : Nat) : List Nat → SchedState → SchedState
  | [], s => s
  | v :: rest, s =>
    if task ∈ s.vm_tasks v then
      { s with
        vm_tasks := upd s.vm_tasks v ((s.vm_tasks v).erase task),
        machine_util := upd s.machine_util ((s.vm_location v).getD 0)
          (if 0 < s.machine_util ((s.vm_location v).getD 0) then
             s.machine_util ((s.vm_location v).getD 0) - 1
           else s.machine_util ((s.vm_location v).getD 0)),
        machine_mem_usage := upd s.machine_mem_usage ((s.vm_location v).getD 0)
          (clampSub (s.machine_mem_usage ((s.vm_location v).getD 0)) (env.taskMem task)) }
    else TaskCompleteGo env task rest s

/-- Scheduler::TaskComplete. -/
def TaskComplete (env : Env) (now task : Nat) (s : SchedState) : SchedState :=
  TaskCompleteGo env task s.vms s

/-- One machine of the PeriodicCheck scan: clear the idle timer if the
descriptor shows activity; otherwise arm it, or on expiry re-fetch the
descriptor and power the machine down only if it still shows zero tasks,
zero VMs and state S0i1.  The event loop is single threaded, so the
re-fetch returns the same descriptor within one invocation. -/
def periodicStep (env : Env) (now m : Nat) (s : SchedState) : SchedState :=
  let info := env.machineInfo m
  if 0 < info.active_tasks ∨ 0 < info.active_vms then
    { s with idle_start := upd s.idle_start m none }
  else
    match s.idle_start m with
    | none => { s with idle_start := upd s.idle_start m (some now) }
    | some t0 =>
      if IDLE_GRACE_PERIOD ≤ usub64 now t0 then
        if info.active_tasks = 0 ∧ info.active_vms = 0 ∧ info.s_state = S0i1 then
          { s with idle_start := upd s.idle_start m none,
                   cmds := s.cmds ++ [Cmd.setState m S5] }
        else
          { s with idle_start := upd s.idle_start m none }
      else s

def PeriodicCheckGo (env : Env) (now : Nat) : List Nat → SchedState → SchedState
  | [], s => s
  | m :: rest, s => PeriodicCheckGo env now rest (periodicStep env now m s)

/-- Scheduler::PeriodicCheck. -/
def PeriodicCheck (env : Env) (now : Nat) (s : SchedState) : SchedState :=
  PeriodicCheckGo env now s.sorted_machines s

/-- Scheduler::MigrationComplete. -/
def MigrationComplete (env : Env) (now vm : Nat) (s : SchedState) : SchedState :=
  { s with migrating := false,
           vm_location := upd s.vm_location vm (some (env.vmMachine vm)) }

def ShutdownGo : List Nat → SchedState → SchedState
  | [], s => s
  | v :: rest, s => ShutdownGo rest (emit s (Cmd.vmShutdown v))

/-- Scheduler::Shutdown. -/
def Shutdown (env : Env) (now : Nat) (s : SchedState) : SchedState :=
  ShutdownGo s.vms s

end Scheduler

/-- StateChangeComplete: the machine-ready event handler has an empty body
in Scheduler.cpp. -/
def StateChangeComplete (env : Env) (now m : Nat) (s : SchedState) : SchedState := s

/-- SLAWarning only logs. -/
def SLAWarning (env : Env) (now task : Nat) (s : SchedState) : SchedState := s

/-- MemoryWarning: logs and runs OffloadTaskFromMachine on the machine. -/
def MemoryWarning (env : Env) (now m : Nat) (s : SchedState) : SchedState :=
  (OffloadTaskFromMachine env m s).1

/-- The inbound event surface dispatched by the simulation clock. -/
inductive Event where
  | newTask (now task : Nat)
  | taskComplete (now task : Nat)
  | periodicCheck (now : Nat)
  | memoryWarning (now m : Nat)
  | migrationDone (now vm : Nat)
  | stateChange (now m : Nat)
  | slaWarning (now task : Nat)
  | shutdown (now : Nat)

/-- One event-handler invocation. -/
def step (env : Env) : Event → SchedState → SchedState
  | Event.newTask now t, s => Scheduler.NewTask env now t s
  | Event.taskComplete now t, s => Scheduler.TaskComplete env now t s
  | Event.periodicCheck now, s => Scheduler.PeriodicCheck env now s
  | Event.memoryWarning now m, s => MemoryWarning env now m s
  | Event.migrationDone now vm, s => Scheduler.MigrationComplete env now vm s
  | Event.stateChange now m, s => StateChangeComplete env now m s
  | Event.slaWarning now t, s => SLAWarning env now t s
  | Event.shutdown now, s => Scheduler.Shutdown env now s

/-- A run of the event loop. -/
def run (env : Env) (es : List Event) (s : SchedState) : SchedState :=
  es.foldl (fun s e => step env e s) s

/-! ### Concrete fixtures used by the witnesses and counterexamples -/

/-- Fixture: one machine (id 0) with CPU type 1, powered on, 100 MB
capacity; the observed task (id 5) needs CPU type 0, so no machine ever
qualifies and no machine has positive tracked memory usage. -/
def envA : Env :=
  { machineInfo := fun _ =>
      { cpu := 1, s_state := S0, active_tasks := 0, active_vms := 0,
        memory_size := 100, memory_used := 0 },
    taskMem := fun _ => 10,
    taskCPU := fun _ => 0,
    taskVMType := fun _ => 0,
    energy := fun m => m,
    vmMachine := fun _ => 0,
    total := 1 }

def stA : SchedState :=
  { sorted_machines := [0],
    machine_util := fun _ => 0,
    machine_mem_usage := fun _ => 0,
    machine_mem_capacity := fun _ => 100,
    vms := [0],
    vm_location := fun v => if v = 0 then some 0 else none,
    vm_tasks := fun _ => [],
    offloading := false,
    migrating := false,
    next_vm := 1,
    idle_start := fun _ => none,
    cmds := [],
    offloadCalls := 0 }

/-- Fixture: one machine (id 0) in power state S5 whose CPU type matches
task 7; one idle VM (id 0) is attached to it. -/
def envB : Env :=
  { machineInfo := fun _ =>
      { cpu := 0, s_state := S5, active_tasks := 0, active_vms := 0,
        memory_size := 100, memory_used := 0 },
    taskMem := fun _ => 10,
    taskCPU := fun _ => 0,
    taskVMType := fun _ => 0,
    energy := fun m => m,
    vmMachine := fun _ => 0,
    total := 1 }

def stB : SchedState := stA

/-- Fixture: two powered-on machines of the same CPU type, machine 0
cheaper in energy; VM 0 on machine 0 already carries five tasks while VM 1
on machine 1 is empty. -/
def envC : Env :=
  { machineInfo := fun m =>
      { cpu := 0, s_state := S0, active_tasks := 0, active_vms := 1,
        memory_size := 100, memory_used := 0 },
    taskMem := fun _ => 10,
    taskCPU := fun _ => 0,
    taskVMType := fun _ => 0,
    energy := fun m => m,
    vmMachine := fun _ => 0,
    total := 2 }

def stC : SchedState :=
  { sorted_machines := [0, 1],
    machine_util := fun m => if m = 0 then 5 else 0,
    machine_mem_usage := fun m => if m = 0 then 50 else 0,
    machine_mem_capacity := fun _ => 100,
    vms := [0, 1],
    vm_location := fun v => if v = 0 then some 0 else if v = 1 then some 1 else none,
    vm_tasks := fun v => if v = 0 then [1, 2, 3, 4, 5] else [],
    offloading := false,
    migrating := false,
    next_vm := 2,
    idle_start := fun _ => none,
    cmds := [],
    offloadCalls := 0 }

/-- Fixture: one machine reporting zero tasks and VMs, in state S0i1, whose
idle timer was armed at time 0. -/
def envD : Env :=
  { machineInfo := fun _ =>
      { cpu := 0, s_state := S0i1, active_tasks := 0, active_vms := 0,
        memory_size := 100, memory_used := 0 },
    taskMem := fun _ => 10,
    taskCPU := fun _ => 0,
    taskVMType := fun _ => 0,
    energy := fun m => m,
    vmMachine := fun _ => 0,
    total := 1 }

def stD : SchedState :=
  { stA with idle_start := fun mm => if mm = 0 then some 0 else none }

/-- Fixture: one machine with a running task and an attached VM. -/
def envE : Env :=
  { machineInfo := fun _ =>
      { cpu := 0, s_state := S0, active_tasks := 1, active_vms := 1,
        memory_size := 100, memory_used := 10 },
    taskMem := fun _ => 10,
    taskCPU := fun _ => 0,
    taskVMType := fun _ => 0,
    energy := fun m => m,
    vmMachine := fun _ => 0,
    total := 1 }

def stE : SchedState := stD

/-- Fixture: the offloading guard flag raised, as inside a running offload. -/
def stF : SchedState := { stA with offloading := true }

/-- Fixture: machine 0 with tracked usage 50 of capacity 100. -/
def stG : SchedState := { stA with machine_mem_usage := fun _ => 50 }

/-! ### Specification predicates -/

/-- The machine hosting a VM, with the default-construction semantics of
the C++ vm_location operator[] access (a missing entry reads as machine 0). -/
def vmHost (s : SchedState) (v : Nat) : Nat := (s.vm_location v).getD 0

/-- A machine passes all four admission filters of the placement scan:
projected memory within capacity, CPU-type match, not the excluded origin
machine, and tracked task count below MAX_TASKS_PER_VM. -/
def machineQualifies (env : Env) (task orig : Nat) (s : SchedState) (m : Nat) : Bool :=
  decide (projectedMem env s m task ≤ s.machine_mem_capacity m) &&
  ((env.machineInfo m).cpu == env.taskCPU task) &&
  (m != orig) && MachineHasCapacity s m

/-- Tracked memory usage within tracked capacity, for every machine. -/
def MemCapInv (s : SchedState) : Prop :=
  ∀ m ∈ s.sorted_machines, s.machine_mem_usage m ≤ s.machine_mem_capacity m

/-- Attached-task count within the container limit, for every container. -/
def VMCapInv (s : SchedState) : Prop :=
  ∀ v ∈ s.vms, (s.vm_tasks v).length ≤ MAX_TASKS_PER_VM

/-- The capacity invariant of the specification (section 8). -/
def CapacityInv (s : SchedState) : Prop := MemCapInv s ∧ VMCapInv s

/-- Tracked per-machine task count within MAX_TASKS_PER_VM. -/
def UtilCapInv (s : SchedState) : Prop :=
  ∀ m ∈ s.sorted_machines, s.machine_util m ≤ MAX_TASKS_PER_VM

/-- The task is recorded in no container of the tracker. -/
def NotPlaced (x : Nat) (s : SchedState) : Prop := ∀ v, x ∉ s.vm_tasks v

/-- Equality of every tracker field that placement decisions read
(everything except the command log, the guard flags, the idle timers and
the ghost counter). -/
def SameCore (a b : SchedState) : Prop :=
  a.sorted_machines = b.sorted_machines ∧
  a.machine_util = b.machine_util ∧
  a.machine_mem_usage = b.machine_mem_usage ∧
  a.machine_mem_capacity = b.machine_mem_capacity ∧
  a.vms = b.vms ∧
  a.vm_location = b.vm_location ∧
  a.vm_tasks = b.vm_tasks ∧
  a.next_vm = b.next_vm

/-- A machine is a legitimate offload target in the sense of the amended
claim: its exact memory ratio lies strictly between 0 and 1. -/
def offloadWorthy (s : SchedState) (m : Nat) : Prop :=
  0 < s.machine_mem_usage m ∧ s.machine_mem_usage m < offloadDen s m

/-! ### Basic lemmas -/

@[simp] theorem upd_same {α : Type} (f : Nat → α) (k : Nat) (v : α) :
    upd f k v k = v := by simp [upd]

@[simp] theorem upd_apply {α : Type} (f : Nat → α) (k : Nat) (v : α) (x : Nat) :
    upd f k v x = if x = k then v else f x := rfl

theorem clampSub_le (a b : Nat) : clampSub a b ≤ a := by
  unfold clampSub; split <;> omega

theorem usub64_exact {a b : Nat} (hba : b ≤ a) (ha : a < W64) :
    usub64 a b = a - b := by
  have hb : b < W64 := lt_of_le_of_lt hba ha
  unfold usub64
  rw [Nat.mod_eq_of_lt ha, Nat.mod_eq_of_lt hb]
  have hW : 0 < W64 := by norm_num [W64]
  have : a + (W64 - b) = (a - b) + W64 := by omega
  rw [this, Nat.add_mod_right, Nat.mod_eq_of_lt (by omega)]

@[simp] theorem wake_sorted (env : Env) (m : Nat) (s : SchedState) :
    (wake env m s).sorted_machines = s.sorted_machines := by
  unfold wake; split <;> rfl

@[simp] theorem wake_util (env : Env) (m : Nat) (s : SchedState) :
    (wake env m s).machine_util = s.machine_util := by
  unfold wake; split <;> rfl

@[simp] theorem wake_mem (env : Env) (m : Nat) (s : SchedState) :
    (wake env m s).machine_mem_usage = s.machine_mem_usage := by
  unfold wake; split <;> rfl

@[simp] theorem wake_cap (env : Env) (m : Nat) (s : SchedState) :
    (wake env m s).machine_mem_capacity = s.machine_mem_capacity := by
  unfold wake; split <;> rfl

@[simp] theorem wake_vms (env : Env) (m : Nat) (s : SchedState) :
    (wake env m s).vms = s.vms := by
  unfold wake; split <;> rfl

@[simp] theorem wake_loc (env : Env) (m : Nat) (s : SchedState) :
    (wake env m s).vm_location = s.vm_location := by
  unfold wake; split <;> rfl

@[simp] theorem wake_tasks (env : Env) (m : Nat) (s : SchedState) :
    (wake env m s).vm_tasks = s.vm_tasks := by
  unfold wake; split <;> rfl

@[simp] theorem wake_off (env : Env) (m : Nat) (s : SchedState) :
    (wake env m s).offloading = s.offloading := by
  unfold wake; split <;> rfl

@[simp] theorem wake_next (env : Env) (m : Nat) (s : SchedState) :
    (wake env m s).next_vm = s.next_vm := by
  unfold wake; split <;> rfl

@[simp] theorem wake_idle (env : Env) (m : Nat) (s : SchedState) :
    (wake env m s).idle_start = s.idle_start := by
  unfold wake; split <;> rfl

@[simp] theorem wake_ghost (env : Env) (m : Nat) (s : SchedState) :
    (wake env m s).offloadCalls = s.offloadCalls := by
  unfold wake; split <;> rfl

theorem projectedMem_wake (env : Env) (m0 : Nat) (s : SchedState) (m task : Nat) :
    projectedMem env (wake env m0 s) m task = projectedMem env s m task := by
  unfold projectedMem; rw [wake_mem]

theorem machineQualifies_wake (env : Env) (task orig m0 : Nat) (s : SchedState) :
    machineQualifies env task orig (wake env m0 s) = machineQualifies env task orig s := by
  funext x
  unfold machineQualifies MachineHasCapacity
  rw [projectedMem_wake, wake_cap, wake_util]

theorem vmFits_wake (env : Env) (m0 : Nat) (s : SchedState) (m : Nat) :
    vmFits (wake env m0 s) m = vmFits s m := by
  funext v
  unfold vmFits
  rw [wake_loc, wake_tasks]

theorem machineQualifies_true_iff (env : Env) (task orig : Nat) (s : SchedState) (m : Nat) :
    machineQualifies env task orig s m = true ↔
      projectedMem env s m task ≤ s.machine_mem_capacity m ∧
      (env.machineInfo m).cpu = env.taskCPU task ∧
      m ≠ orig ∧
      s.machine_util m < MAX_TASKS_PER_VM := by
  unfold machineQualifies MachineHasCapacity
  simp [and_assoc]

theorem SameCore.refl (s : SchedState) : SameCore s s := by
  unfold SameCore; tauto

theorem SameCore.trans {a b c : SchedState} (h1 : SameCore a b) (h2 : SameCore b c) :
    SameCore a c := by
  unfold SameCore at *
  obtain ⟨e1, e2, e3, e4, e5, e6, e7, e8⟩ := h1
  obtain ⟨f1, f2, f3, f4, f5, f6, f7, f8⟩ := h2
  exact ⟨e1.trans f1, e2.trans f2, e3.trans f3, e4.trans f4,
         e5.trans f5, e6.trans f6, e7.trans f7, e8.trans f8⟩

theorem SameCore_wake (env : Env) (m : Nat) (s : SchedState) :
    SameCore (wake env m s) s := by
  unfold SameCore; simp

theorem MachineHasCapacity_wake (env : Env) (m0 : Nat) (s : SchedState) (m : Nat) :
    MachineHasCapacity (wake env m0 s) m = MachineHasCapacity s m := by
  unfold MachineHasCapacity; rw [wake_util]

/-! ### The placement scan -/

/-- Rewriting the scan body in terms of the admission predicate. -/
theorem tryPlacePass_cons (env : Env) (task prio orig m : Nat) (rest : List Nat)
    (s : SchedState) :
    tryPlacePass env task prio orig (m :: rest) s =
      (if machineQualifies env task orig s m then
        match s.vms.find? (vmFits s m) with
        | some v => (commitReuse env task prio m v (wake env m s), some v)
        | none => (commitNew env task prio m (wake env m s), some s.next_vm)
      else tryPlacePass env task prio orig rest (wake env m s)) := by
  by_cases hq : machineQualifies env task orig s m = true
  · rcases (machineQualifies_true_iff env task orig s m).mp hq with ⟨h1, h2, h3, h4⟩
    rw [if_pos hq]
    simp only [tryPlacePass, wake_cap, projectedMem_wake, wake_vms, vmFits_wake, wake_next]
    rw [if_neg (Nat.not_lt.mpr h1), if_neg (by simpa using h2), if_neg h3,
      if_pos (by rw [MachineHasCapacity_wake]; unfold MachineHasCapacity; simpa using h4)]
  · rw [if_neg hq]
    simp only [tryPlacePass, wake_cap, projectedMem_wake]
    by_cases h1 : s.machine_mem_capacity m < projectedMem env s m task
    · rw [if_pos h1]
    · rw [if_neg h1]
      by_cases h2 : (env.machineInfo m).cpu ≠ env.taskCPU task
      · rw [if_pos h2]
      · rw [if_neg h2]
        by_cases h3 : m = orig
        · rw [if_pos h3]
        · rw [if_neg h3]
          have h4 : ¬ (MachineHasCapacity (wake env m s) m = true) := by
            rw [MachineHasCapacity_wake]
            intro h4
            apply hq
            rw [machineQualifies_true_iff]
            refine ⟨Nat.not_lt.mp h1, not_not.mp h2, h3, ?_⟩
            unfold MachineHasCapacity at h4
            simpa using h4
          rw [if_neg h4]

/-- Fields of the tracker that no branch of the scan modifies. -/
theorem tryPlacePass_keep (env : Env) (task prio orig : Nat) :
    ∀ (l : List Nat) (s : SchedState),
    (tryPlacePass env task prio orig l s).1.sorted_machines = s.sorted_machines ∧
    (tryPlacePass env task prio orig l s).1.machine_mem_capacity = s.machine_mem_capacity ∧
    (tryPlacePass env task prio orig l s).1.offloading = s.offloading ∧
    (tryPlacePass env task prio orig l s).1.idle_start = s.idle_start ∧
    (tryPlacePass env task prio orig l s).1.offloadCalls = s.offloadCalls := by
  intro l
  induction l with
  | nil => intro s; simp [tryPlacePass]
  | cons m rest ih =>
    intro s
    rw [tryPlacePass_cons]
    by_cases hq : machineQualifies env task orig s m = true
    · rw [if_pos hq]
      cases hf : s.vms.find? (vmFits s m) with
      | some v => simp [commitReuse]
      | none => simp [commitNew]
    · rw [if_neg hq]
      rcases ih (wake env m s) with ⟨k1, k2, k3, k4, k5⟩
      rw [k1, k2, k3, k4, k5]
      simp

/-- A failed scan changes nothing but the command log. -/
theorem tryPlacePass_none_core (env : Env) (task prio orig : Nat) :
    ∀ (l : List Nat) (s : SchedState),
    (tryPlacePass env task prio orig l s).2 = none →
    SameCore (tryPlacePass env task prio orig l s).1 s := by
  intro l
  induction l with
  | nil => intro s _; exact SameCore.refl s
  | cons m rest ih =>
    intro s hnone
    rw [tryPlacePass_cons] at hnone ⊢
    by_cases hq : machineQualifies env task orig s m = true
    · rw [if_pos hq] at hnone
      cases hf : s.vms.find? (vmFits s m) with
      | some v => rw [hf] at hnone; simp at hnone
      | none => rw [hf] at hnone; simp at hnone
    · rw [if_neg hq] at hnone ⊢
      exact (ih (wake env m s) hnone).trans (SameCore_wake env m s)

/-- Full characterisation of a successful scan: the chosen machine is the
first machine of the list passing all admission filters, and the commit
records exactly one new task on the first fitting container of that
machine (or on a freshly created one). -/
theorem tryPlacePass_spec (env : Env) (task prio orig : Nat) :
    ∀ (l : List Nat) (s : SchedState),
    ((tryPlacePass env task prio orig l s).2 = none ↔
      l.find? (machineQualifies env task orig s) = none) ∧
    (∀ v, (tryPlacePass env task prio orig l s).2 = some v →
      ∃ m, l.find? (machineQualifies env task orig s) = some m ∧
        vmHost (tryPlacePass env task prio orig l s).1 v = m ∧
        (env.machineInfo m).cpu = env.taskCPU task ∧
        m ≠ orig ∧
        s.machine_util m < MAX_TASKS_PER_VM ∧
        (tryPlacePass env task prio orig l s).1.machine_util m = s.machine_util m + 1 ∧
        task ∈ (tryPlacePass env task prio orig l s).1.vm_tasks v ∧
        (tryPlacePass env task prio orig l s).1.machine_mem_usage m
          = projectedMem env s m task ∧
        projectedMem env s m task ≤ s.machine_mem_capacity m ∧
        (s.vms.find? (vmFits s m) = some v ∨
          (s.vms.find? (vmFits s m) = none ∧ v = s.next_vm))) := by
  intro l
  induction l with
  | nil =>
    intro s
    constructor
    · simp [tryPlacePass]
    · intro v hv; simp [tryPlacePass] at hv
  | cons m rest ih =>
    intro s
    rw [tryPlacePass_cons]
    by_cases hq : machineQualifies env task orig s m = true
    · rw [if_pos hq, List.find?_cons_of_pos _ hq]
      rcases (machineQualifies_true_iff env task orig s m).mp hq with ⟨h1, h2, h3, h4⟩
      cases hf : s.vms.find? (vmFits s m) with
      | some v0 =>
        constructor
        · simp
        · intro v hv
          simp only [Option.some.injEq] at hv
          subst hv
          refine ⟨m, rfl, ?_, h2, h3, h4, ?_, ?_, ?_, h1, Or.inl hf⟩
          · have hfit := List.find?_some hf
            unfold vmFits at hfit
            have hloc : (s.vm_location v0).getD 0 = m := by
              have := (Bool.and_eq_true _ _).mp hfit
              simpa using this.1
            unfold vmHost
            simp [commitReuse, hloc]
          · simp [commitReuse]
          · simp [commitReuse]
          · simp [commitReuse, projectedMem_wake]
      | none =>
        constructor
        · simp
        · intro v hv
          simp only [wake_next, Option.some.injEq] at hv
          subst hv
          refine ⟨m, rfl, ?_, h2, h3, h4, ?_, ?_, ?_, h1, Or.inr ⟨hf, rfl⟩⟩
          · unfold vmHost
            simp [commitNew]
          · simp [commitNew]
          · simp [commitNew]
          · simp [commitNew, projectedMem_wake]
    · rw [if_neg hq, List.find?_cons_of_neg _ (by simpa using hq)]
      rcases ih (wake env m s) with ⟨ih1, ih2⟩
      rw [machineQualifies_wake] at ih1 ih2
      constructor
      · exact ih1
      · intro v hv
        rcases ih2 v hv with ⟨m1, e1, e2, e3, e4, e5, e6, e7, e8, e9, e10⟩
        rw [wake_util] at e5 e6
        rw [projectedMem_wake] at e8 e9
        rw [wake_cap] at e9
        rw [wake_vms, vmFits_wake, wake_next] at e10
        exact ⟨m1, e1, e2, e3, e4, e5, e6, e7, e8, e9, e10⟩

/-! ### Transport of the invariants along core-preserving updates -/

theorem SameCore_setFlag (s : SchedState) (b : Bool) :
    SameCore (setOffloading s b) s := by
  unfold SameCore setOffloading; tauto

theorem SameCore_bumpGhost (s : SchedState) :
    SameCore (bumpGhost s) s := by
  unfold SameCore bumpGhost; tauto

@[simp] theorem setOffloading_offloading (s : SchedState) (b : Bool) :
    (setOffloading s b).offloading = b := rfl

@[simp] theorem setOffloading_ghost (s : SchedState) (b : Bool) :
    (setOffloading s b).offloadCalls = s.offloadCalls := rfl

@[simp] theorem bumpGhost_ghost (s : SchedState) :
    (bumpGhost s).offloadCalls = s.offloadCalls + 1 := rfl

@[simp] theorem bumpGhost_offloading (s : SchedState) :
    (bumpGhost s).offloading = s.offloading := rfl

theorem MemCapInv_sameCore {a b : SchedState} (h : SameCore a b) (hb : MemCapInv b) :
    MemCapInv a := by
  unfold MemCapInv at *
  rcases h with ⟨h1, _, h3, h4, _⟩
  rw [h1, h3, h4]
  exact hb

theorem VMCapInv_sameCore {a b : SchedState} (h : SameCore a b) (hb : VMCapInv b) :
    VMCapInv a := by
  unfold VMCapInv at *
  rcases h with ⟨_, _, _, _, h5, _, h7, _⟩
  rw [h5, h7]
  exact hb

theorem UtilCapInv_sameCore {a b : SchedState} (h : SameCore a b) (hb : UtilCapInv b) :
    UtilCapInv a := by
  unfold UtilCapInv at *
  rcases h with ⟨h1, h2, _⟩
  rw [h1, h2]
  exact hb

theorem NotPlaced_sameCore {x : Nat} {a b : SchedState} (h : SameCore a b)
    (hb : NotPlaced x b) : NotPlaced x a := by
  unfold NotPlaced at *
  rcases h with ⟨_, _, _, _, _, _, h7, _⟩
  rw [h7]
  exact hb

/-! ### Invariant preservation through one placement scan -/

theorem tryPlacePass_memCap (env : Env) (task prio orig : Nat) :
    ∀ (l : List Nat) (s : SchedState), MemCapInv s →
    MemCapInv (tryPlacePass env task prio orig l s).1 := by
  intro l
  induction l with
  | nil => intro s h; simpa [tryPlacePass] using h
  | cons m rest ih =>
    intro s h
    rw [tryPlacePass_cons]
    by_cases hq : machineQualifies env task orig s m = true
    · rw [if_pos hq]
      rcases (machineQualifies_true_iff env task orig s m).mp hq with ⟨h1, _, _, _⟩
      cases hf : s.vms.find? (vmFits s m) with
      | some v =>
        intro m' hm'
        simp only [commitReuse, wake_sorted, wake_mem, wake_cap, projectedMem_wake,
          upd_apply] at hm' ⊢
        split
        · next he => subst he; exact h1
        · exact h m' hm'
      | none =>
        intro m' hm'
        simp only [commitNew, wake_sorted, wake_mem, wake_cap, projectedMem_wake,
          upd_apply] at hm' ⊢
        split
        · next he => subst he; exact h1
        · exact h m' hm'
    · rw [if_neg hq]
      exact ih (wake env m s) (MemCapInv_sameCore (SameCore_wake env m s) h)

theorem tryPlacePass_vmCap (env : Env) (task prio orig : Nat) :
    ∀ (l : List Nat) (s : SchedState), VMCapInv s →
    VMCapInv (tryPlacePass env task prio orig l s).1 := by
  intro l
  induction l with
  | nil => intro s h; simpa [tryPlacePass] using h
  | cons m rest ih =>
    intro s h
    rw [tryPlacePass_cons]
    by_cases hq : machineQualifies env task orig s m = true
    · rw [if_pos hq]
      cases hf : s.vms.find? (vmFits s m) with
      | some v =>
        have hfit := List.find?_some hf
        unfold vmFits at hfit
        have hlen : (s.vm_tasks v).length < MAX_TASKS_PER_VM := by
          have := (Bool.and_eq_true _ _).mp hfit
          simpa using this.2
        intro v' hv'
        simp only [commitReuse, wake_vms, wake_tasks, upd_apply] at hv' ⊢
        split
        · next he =>
          subst he
          simp only [List.length_append, List.length_singleton]
          omega
        · exact h v' hv'
      | none =>
        intro v' hv'
        simp only [commitNew, wake_vms, wake_tasks, wake_next, upd_apply,
          List.mem_append, List.mem_singleton] at hv' ⊢
        split
        · next he =>
          simp only [List.length_singleton]
          norm_num [MAX_TASKS_PER_VM]
        · next he =>
          rcases hv' with hv' | hv'
          · exact h v' hv'
          · exact absurd hv' he
    · rw [if_neg hq]
      exact ih (wake env m s) (VMCapInv_sameCore (SameCore_wake env m s) h)

theorem tryPlacePass_utilCap (env : Env) (task prio orig : Nat) :
    ∀ (l : List Nat) (s : SchedState), UtilCapInv s →
    UtilCapInv (tryPlacePass env task prio orig l s).1 := by
  intro l
  induction l with
  | nil => intro s h; simpa [tryPlacePass] using h
  | cons m rest ih =>
    intro s h
    rw [tryPlacePass_cons]
    by_cases hq : machineQualifies env task orig s m = true
    · rw [if_pos hq]
      rcases (machineQualifies_true_iff env task orig s m).mp hq with ⟨_, _, _, h4⟩
      cases hf : s.vms.find? (vmFits s m) with
      | some v =>
        intro m' hm'
        simp only [commitReuse, wake_sorted, wake_util, upd_apply] at hm' ⊢
        split
        · next he => subst he; omega
        · exact h m' hm'
      | none =>
        intro m' hm'
        simp only [commitNew, wake_sorted, wake_util, upd_apply] at hm' ⊢
        split
        · next he => subst he; omega
        · exact h m' hm'
    · rw [if_neg hq]
      exact ih (wake env m s) (UtilCapInv_sameCore (SameCore_wake env m s) h)

theorem tryPlacePass_notPlaced (env : Env) (task prio orig x : Nat) (hne : task ≠ x) :
    ∀ (l : List Nat) (s : SchedState), NotPlaced x s →
    NotPlaced x (tryPlacePass env task prio orig l s).1 := by
  intro l
  induction l with
  | nil => intro s h; simpa [tryPlacePass] using h
  | cons m rest ih =>
    intro s h
    rw [tryPlacePass_cons]
    by_cases hq : machineQualifies env task orig s m = true
    · rw [if_pos hq]
      cases hf : s.vms.find? (vmFits s m) with
      | some v =>
        intro v'
        simp only [commitReuse, wake_tasks, upd_apply]
        split
        · next he =>
          simp only [List.mem_append, List.mem_singleton]
          rintro (hx | hx)
          · exact h _ hx
          · exact hne hx.symm
        · exact h v'
      | none =>
        intro v'
        simp only [commitNew, wake_tasks, upd_apply]
        split
        · next he =>
          simp only [List.mem_singleton]
          intro hx
          exact hne hx.symm
        · exact h v'
    · rw [if_neg hq]
      exact ih (wake env m s) (NotPlaced_sameCore (SameCore_wake env m s) h)

/-! ### Invariant preservation through the offload layers -/

theorem length_eraseIdx_le {α : Type} : ∀ (l : List α) (i : Nat),
    (l.eraseIdx i).length ≤ l.length := by
  intro l
  induction l with
  | nil => intro i; simp [List.eraseIdx]
  | cons a l ih =>
    intro i
    cases i with
    | zero => simp [List.eraseIdx]
    | succ i =>
      simp only [List.eraseIdx, List.length_cons]
      exact Nat.succ_le_succ (ih i)

theorem mem_of_mem_eraseIdx {α : Type} {x : α} :
    ∀ {l : List α} {i : Nat}, x ∈ l.eraseIdx i → x ∈ l := by
  intro l
  induction l with
  | nil => intro i h; simpa [List.eraseIdx] using h
  | cons a l ih =>
    intro i h
    cases i with
    | zero =>
      simp only [List.eraseIdx] at h
      exact List.mem_cons_of_mem a h
    | succ i =>
      simp only [List.eraseIdx, List.mem_cons] at h
      rcases h with h | h
      · exact h ▸ List.mem_cons_self a l
      · exact List.mem_cons_of_mem a (ih h)

theorem offloadEraseCommit_memCap (env : Env) (m vm i t : Nat) {s : SchedState}
    (h : MemCapInv s) : MemCapInv (offloadEraseCommit env m vm i t s) := by
  intro m' hm'
  simp only [offloadEraseCommit, upd_apply] at hm' ⊢
  split
  · next he => subst he; exact le_trans (clampSub_le _ _) (h _ hm')
  · exact h _ hm'

theorem offloadEraseCommit_vmCap (env : Env) (m vm i t : Nat) {s : SchedState}
    (h : VMCapInv s) : VMCapInv (offloadEraseCommit env m vm i t s) := by
  intro v' hv'
  simp only [offloadEraseCommit, upd_apply] at hv' ⊢
  split
  · next he => subst he; exact le_trans (length_eraseIdx_le _ _) (h _ hv')
  · exact h _ hv'

theorem offloadEraseCommit_utilCap (env : Env) (m vm i t : Nat) {s : SchedState}
    (h : UtilCapInv s) : UtilCapInv (offloadEraseCommit env m vm i t s) := by
  exact h

theorem offloadEraseCommit_notPlaced (env : Env) (m vm i t : Nat) {x : Nat}
    {s : SchedState} (h : NotPlaced x s) :
    NotPlaced x (offloadEraseCommit env m vm i t s) := by
  intro v'
  simp only [offloadEraseCommit, upd_apply]
  split
  · intro hx; exact h vm (mem_of_mem_eraseIdx hx)
  · exact h v'

theorem offloadTaskLoop_pres {P : SchedState → Prop} (env : Env)
    (place : Nat → Nat → Nat → SchedState → SchedState × Option Nat) (m vm : Nat)
    (hErase : ∀ i t s, P s → P (offloadEraseCommit env m vm i t s))
    (hPlace : ∀ t p o s, P s → t ∈ s.vm_tasks vm → P (place t p o s).1) :
    ∀ (fuel i : Nat) (s : SchedState), P s →
    P (offloadTaskLoop env place m vm fuel i s).1 := by
  intro fuel
  induction fuel with
  | zero => intro i s h; exact h
  | succ f ih =>
    intro i s h
    simp only [offloadTaskLoop]
    cases hget : (s.vm_tasks vm).get? i with
    | none => simp only [hget]; exact h
    | some t =>
      simp only [hget]
      have hmem : t ∈ s.vm_tasks vm := List.get?_mem hget
      have hp : P (place t (priorityOf t) m s).1 := hPlace _ _ _ _ h hmem
      cases hres : (place t (priorityOf t) m s).2 with
      | none => simp only [hres]; exact ih _ _ hp
      | some v => simp only [hres]; exact hErase _ _ _ hp

theorem offloadVMLoop_pres {P : SchedState → Prop} (env : Env)
    (place : Nat → Nat → Nat → SchedState → SchedState × Option Nat) (m : Nat)
    (hErase : ∀ vm i t s, P s → P (offloadEraseCommit env m vm i t s))
    (hPlace : ∀ vm t p o s, P s → t ∈ s.vm_tasks vm → P (place t p o s).1) :
    ∀ (l : List Nat) (s : SchedState), P s →
    P (offloadVMLoop env place m l s).1 := by
  intro l
  induction l with
  | nil => intro s h; simpa [offloadVMLoop] using h
  | cons vm rest ih =>
    intro s h
    simp only [offloadVMLoop]
    have h1 := offloadTaskLoop_pres env place m vm (hErase vm) (hPlace vm)
      (s.vm_tasks vm).length 0 s h
    split
    · exact h1
    · exact ih _ h1

theorem OffloadBody_pres {P : SchedState → Prop} (env : Env)
    (place : Nat → Nat → Nat → SchedState → SchedState × Option Nat) (m : Nat)
    (hSame : ∀ a b, SameCore a b → P b → P a)
    (hErase : ∀ vm i t s, P s → P (offloadEraseCommit env m vm i t s))
    (hPlace : ∀ vm t p o s, P s → t ∈ s.vm_tasks vm → P (place t p o s).1) :
    ∀ (s : SchedState), P s → P (OffloadBody env place m s).1 := by
  intro s h
  unfold OffloadBody
  exact offloadVMLoop_pres env place m hErase hPlace _ _
    (hSame _ _ (SameCore_bumpGhost s) h)

theorem placeAttempts_pres {P : SchedState → Prop} (env : Env) (task prio orig : Nat)
    (offload : Nat → SchedState → SchedState × Bool)
    (hSame : ∀ a b, SameCore a b → P b → P a)
    (hPass : ∀ l s, P s → P (tryPlacePass env task prio orig l s).1)
    (hOffload : ∀ m s, P s → P (offload m s).1) :
    ∀ (a : Nat) (s : SchedState), P s →
    P (placeAttempts env task prio orig offload a s).1 := by
  intro a
  induction a with
  | zero => intro s h; simpa [placeAttempts] using h
  | succ a ih =>
    intro s h
    simp only [placeAttempts]
    have hr := hPass s.sorted_machines s h
    cases hres : (tryPlacePass env task prio orig s.sorted_machines s).2 with
    | some v => simp only [hres]; exact hr
    | none =>
      simp only [hres]
      by_cases hoff : (tryPlacePass env task prio orig s.sorted_machines s).1.offloading = true
      · simp only [hoff, if_true]; exact hr
      · simp only [Bool.not_eq_true] at hoff
        simp only [hoff, Bool.false_eq_true, if_false]
        have h2 : P (setOffloading (tryPlacePass env task prio orig
            s.sorted_machines s).1 true) := hSame _ _ (SameCore_setFlag _ _) hr
        cases htgt : selectOffloadTarget (setOffloading (tryPlacePass env task prio orig
            s.sorted_machines s).1 true) with
        | none =>
          simp only [htgt]
          exact hSame _ _ (SameCore_setFlag _ _) h2
        | some tgt =>
          simp only [htgt]
          have h3 := hOffload tgt _ h2
          have h4 : P (setOffloading (offload tgt (setOffloading (tryPlacePass env
              task prio orig s.sorted_machines s).1 true)).1 false) :=
            hSame _ _ (SameCore_setFlag _ _) h3
          by_cases hsucc : (offload tgt (setOffloading (tryPlacePass env task prio orig
              s.sorted_machines s).1 true)).2 = true
          · simp only [hsucc, if_true]
            exact ih _ h4
          · simp only [Bool.not_eq_true] at hsucc
            simp only [hsucc, Bool.false_eq_true, if_false]
            exact h4

theorem PlaceTaskF_pres {P : SchedState → Prop} (env : Env)
    (hSame : ∀ a b, SameCore a b → P b → P a)
    (hPass : ∀ t p o l s, P s → P (tryPlacePass env t p o l s).1)
    (hErase : ∀ m vm i t s, P s → P (offloadEraseCommit env m vm i t s)) :
    ∀ (f t p o : Nat) (s : SchedState), P s → P (PlaceTaskF env f t p o s).1 := by
  intro f
  induction f with
  | zero => intro t p o s h; simpa [PlaceTaskF] using h
  | succ f ih =>
    intro t p o s h
    simp only [PlaceTaskF]
    exact placeAttempts_pres env t p o _ hSame (hPass t p o)
      (fun m0 s0 h0 => OffloadBody_pres env _ m0 hSame (fun vm i t2 => hErase m0 vm i t2)
        (fun vm t2 p2 o2 s2 h2 _ => ih t2 p2 o2 s2 h2) s0 h0) 3 s h

/-! ### Invariant preservation through every event handler -/

theorem TaskCompleteGo_memCap (env : Env) (task : Nat) :
    ∀ (l : List Nat) (s : SchedState), MemCapInv s →
    MemCapInv (Scheduler.TaskCompleteGo env task l s) := by
  intro l
  induction l with
  | nil => intro s h; exact h
  | cons v rest ih =>
    intro s h
    simp only [Scheduler.TaskCompleteGo]
    split
    · intro m' hm'
      simp only [upd_apply] at hm' ⊢
      split
      · next he => subst he; exact le_trans (clampSub_le _ _) (h _ hm')
      · exact h _ hm'
    · exact ih s h

theorem length_erase_le {α : Type} [DecidableEq α] :
    ∀ (l : List α) (a : α), (l.erase a).length ≤ l.length := by
  intro l
  induction l with
  | nil => intro a; simp
  | cons b l ih =>
    intro a
    simp only [List.erase_cons]
    split
    · simp
    · simpa using ih a

theorem TaskCompleteGo_vmCap (env : Env) (task : Nat) :
    ∀ (l : List Nat) (s : SchedState), VMCapInv s →
    VMCapInv (Scheduler.TaskCompleteGo env task l s) := by
  intro l
  induction l with
  | nil => intro s h; exact h
  | cons v rest ih =>
    intro s h
    simp only [Scheduler.TaskCompleteGo]
    split
    · intro v' hv'
      simp only [upd_apply] at hv' ⊢
      split
      · next he => subst he; exact le_trans (length_erase_le _ _) (h _ hv')
      · exact h _ hv'
    · exact ih s h

theorem TaskCompleteGo_utilCap (env : Env) (task : Nat) :
    ∀ (l : List Nat) (s : SchedState), UtilCapInv s →
    UtilCapInv (Scheduler.TaskCompleteGo env task l s) := by
  intro l
  induction l with
  | nil => intro s h; exact h
  | cons v rest ih =>
    intro s h
    simp only [Scheduler.TaskCompleteGo]
    split
    · intro m' hm'
      simp only [upd_apply] at hm' ⊢
      split
      · next he =>
        subst he
        have := h _ hm'
        split <;> omega
      · exact h _ hm'
    · exact ih s h

theorem periodicStep_sameCore (env : Env) (now m : Nat) (s : SchedState) :
    SameCore (Scheduler.periodicStep env now m s) s := by
  simp only [Scheduler.periodicStep]
  by_cases hact : 0 < (env.machineInfo m).active_tasks ∨ 0 < (env.machineInfo m).active_vms
  · simp only [if_pos hact]; unfold SameCore; simp
  · simp only [if_neg hact]
    cases hid : s.idle_start m with
    | none => simp only [hid]; unfold SameCore; simp
    | some t0 =>
      simp only [hid]
      by_cases hg : IDLE_GRACE_PERIOD ≤ usub64 now t0
      · simp only [if_pos hg]
        by_cases hc : (env.machineInfo m).active_tasks = 0 ∧
            (env.machineInfo m).active_vms = 0 ∧ (env.machineInfo m).s_state = S0i1
        · simp only [if_pos hc]; unfold SameCore; simp
        · simp only [if_neg hc]; unfold SameCore; simp
      · simp only [if_neg hg]; exact SameCore.refl s

theorem PeriodicCheckGo_sameCore (env : Env) (now : Nat) :
    ∀ (l : List Nat) (s : SchedState),
    SameCore (Scheduler.PeriodicCheckGo env now l s) s := by
  intro l
  induction l with
  | nil => intro s; exact SameCore.refl s
  | cons m rest ih =>
    intro s
    exact (ih (Scheduler.periodicStep env now m s)).trans (periodicStep_sameCore env now m s)

theorem ShutdownGo_sameCore :
    ∀ (l : List Nat) (s : SchedState), SameCore (Scheduler.ShutdownGo l s) s := by
  intro l
  induction l with
  | nil => intro s; exact SameCore.refl s
  | cons v rest ih =>
    intro s
    refine (ih (emit s (Cmd.vmShutdown v))).trans ?_
    unfold SameCore emit; simp

theorem step_memCap (env : Env) (e : Event) (s : SchedState) (h : MemCapInv s) :
    MemCapInv (step env e s) := by
  cases e with
  | newTask now t =>
    exact PlaceTaskF_pres env (fun a b hc hb => MemCapInv_sameCore hc hb)
      (fun t p o l s2 h2 => tryPlacePass_memCap env t p o l s2 h2)
      (fun m vm i t2 s2 h2 => offloadEraseCommit_memCap env m vm i t2 h2) 3 _ _ _ s h
  | taskComplete now t => exact TaskCompleteGo_memCap env t s.vms s h
  | periodicCheck now =>
    exact MemCapInv_sameCore (PeriodicCheckGo_sameCore env now s.sorted_machines s) h
  | memoryWarning now m =>
    exact OffloadBody_pres env _ m (fun a b hc hb => MemCapInv_sameCore hc hb)
      (fun vm i t2 s2 h2 => offloadEraseCommit_memCap env m vm i t2 h2)
      (fun vm t2 p2 o2 s2 h2 _ =>
        PlaceTaskF_pres env (fun a b hc hb => MemCapInv_sameCore hc hb)
          (fun t p o l s3 h3 => tryPlacePass_memCap env t p o l s3 h3)
          (fun m0 vm0 i t3 s3 h3 => offloadEraseCommit_memCap env m0 vm0 i t3 h3)
          3 t2 p2 o2 s2 h2) s h
  | migrationDone now vm => exact h
  | stateChange now m => exact h
  | slaWarning now t => exact h
  | shutdown now => exact MemCapInv_sameCore (ShutdownGo_sameCore s.vms s) h

theorem step_vmCap (env : Env) (e : Event) (s : SchedState) (h : VMCapInv s) :
    VMCapInv (step env e s) := by
  cases e with
  | newTask now t =>
    exact PlaceTaskF_pres env (fun a b hc hb => VMCapInv_sameCore hc hb)
      (fun t p o l s2 h2 => tryPlacePass_vmCap env t p o l s2 h2)
      (fun m vm i t2 s2 h2 => offloadEraseCommit_vmCap env m vm i t2 h2) 3 _ _ _ s h
  | taskComplete now t => exact TaskCompleteGo_vmCap env t s.vms s h
  | periodicCheck now =>
    exact VMCapInv_sameCore (PeriodicCheckGo_sameCore env now s.sorted_machines s) h
  | memoryWarning now m =>
    exact OffloadBody_pres env _ m (fun a b hc hb => VMCapInv_sameCore hc hb)
      (fun vm i t2 s2 h2 => offloadEraseCommit_vmCap env m vm i t2 h2)
      (fun vm t2 p2 o2 s2 h2 _ =>
        PlaceTaskF_pres env (fun a b hc hb => VMCapInv_sameCore hc hb)
          (fun t p o l s3 h3 => tryPlacePass_vmCap env t p o l s3 h3)
          (fun m0 vm0 i t3 s3 h3 => offloadEraseCommit_vmCap env m0 vm0 i t3 h3)
          3 t2 p2 o2 s2 h2) s h
  | migrationDone now vm => exact h
  | stateChange now m => exact h
  | slaWarning now t => exact h
  | shutdown now => exact VMCapInv_sameCore (ShutdownGo_sameCore s.vms s) h

theorem step_utilCap (env : Env) (e : Event) (s : SchedState) (h : UtilCapInv s) :
    UtilCapInv (step env e s) := by
  cases e with
  | newTask now t =>
    exact PlaceTaskF_pres env (fun a b hc hb => UtilCapInv_sameCore hc hb)
      (fun t p o l s2 h2 => tryPlacePass_utilCap env t p o l s2 h2)
      (fun m vm i t2 s2 h2 => offloadEraseCommit_utilCap env m vm i t2 h2) 3 _ _ _ s h
  | taskComplete now t => exact TaskCompleteGo_utilCap env t s.vms s h
  | periodicCheck now =>
    exact UtilCapInv_sameCore (PeriodicCheckGo_sameCore env now s.sorted_machines s) h
  | memoryWarning now m =>
    exact OffloadBody_pres env _ m (fun a b hc hb => UtilCapInv_sameCore hc hb)
      (fun vm i t2 s2 h2 => offloadEraseCommit_utilCap env m vm i t2 h2)
      (fun vm t2 p2 o2 s2 h2 _ =>
        PlaceTaskF_pres env (fun a b hc hb => UtilCapInv_sameCore hc hb)
          (fun t p o l s3 h3 => tryPlacePass_utilCap env t p o l s3 h3)
          (fun m0 vm0 i t3 s3 h3 => offloadEraseCommit_utilCap env m0 vm0 i t3 h3)
          3 t2 p2 o2 s2 h2) s h
  | migrationDone now vm => exact h
  | stateChange now m => exact h
  | slaWarning now t => exact h
  | shutdown now => exact UtilCapInv_sameCore (ShutdownGo_sameCore s.vms s) h

/-! ### No task materialises out of a failed placement -/

/-- Placement of a task different from x never records x anywhere. -/
theorem PlaceTaskF_notPlaced_ne (env : Env) (x : Nat) :
    ∀ (f t p o : Nat) (s : SchedState), t ≠ x → NotPlaced x s →
    NotPlaced x (PlaceTaskF env f t p o s).1 := by
  intro f
  induction f with
  | zero => intro t p o s _ h; exact h
  | succ f ih =>
    intro t p o s hne h
    simp only [PlaceTaskF]
    refine placeAttempts_pres env t p o _
      (fun a b hc hb => NotPlaced_sameCore hc hb)
      (fun l s2 h2 => tryPlacePass_notPlaced env t p o x hne l s2 h2)
      (fun m0 s0 h0 => OffloadBody_pres env _ m0
        (fun a b hc hb => NotPlaced_sameCore hc hb)
        (fun vm i t2 s2 h2 => offloadEraseCommit_notPlaced env m0 vm i t2 h2)
        (fun vm t2 p2 o2 s2 h2 hmem =>
          ih t2 p2 o2 s2 (fun heq => (h2 vm) (heq ▸ hmem)) h2) s0 h0) 3 s h

/-- Variant of the generic attempt-loop preservation usable when the
property only survives a scan that found no machine. -/
theorem placeAttempts_none_pres {P : SchedState → Prop} (env : Env)
    (task prio orig : Nat) (offload : Nat → SchedState → SchedState × Bool)
    (hSame : ∀ a b, SameCore a b → P b → P a)
    (hOffload : ∀ m s, P s → P (offload m s).1) :
    ∀ (a : Nat) (s : SchedState), P s →
    (placeAttempts env task prio orig offload a s).2 = none →
    P (placeAttempts env task prio orig offload a s).1 := by
  intro a
  induction a with
  | zero => intro s h _; exact h
  | succ a ih =>
    intro s h hnone
    simp only [placeAttempts] at hnone ⊢
    cases hres : (tryPlacePass env task prio orig s.sorted_machines s).2 with
    | some v => rw [hres] at hnone; simp at hnone
    | none =>
      have hr : P (tryPlacePass env task prio orig s.sorted_machines s).1 :=
        hSame _ _ (tryPlacePass_none_core env task prio orig _ s hres) h
      rw [hres] at hnone
      simp only [hres]
      by_cases hoff : (tryPlacePass env task prio orig s.sorted_machines s).1.offloading = true
      · simp only [hoff, if_true]; exact hr
      · simp only [Bool.not_eq_true] at hoff
        simp only [hoff, Bool.false_eq_true, if_false] at hnone ⊢
        cases htgt : selectOffloadTarget (setOffloading (tryPlacePass env task prio orig
            s.sorted_machines s).1 true) with
        | none =>
          simp only [htgt]
          have h2 : P (setOffloading (tryPlacePass env task prio orig
              s.sorted_machines s).1 true) := hSame _ _ (SameCore_setFlag _ _) hr
          exact hSame _ _ (SameCore_setFlag _ _) h2
        | some tgt =>
          simp only [htgt] at hnone ⊢
          have h2 : P (setOffloading (tryPlacePass env task prio orig
              s.sorted_machines s).1 true) := hSame _ _ (SameCore_setFlag _ _) hr
          have h3 := hOffload tgt _ h2
          have h4 : P (setOffloading (offload tgt (setOffloading (tryPlacePass env
              task prio orig s.sorted_machines s).1 true)).1 false) :=
            hSame _ _ (SameCore_setFlag _ _) h3
          by_cases hsucc : (offload tgt (setOffloading (tryPlacePass env task prio orig
              s.sorted_machines s).1 true)).2 = true
          · simp only [hsucc, if_true] at hnone ⊢
            exact ih _ h4 hnone
          · simp only [Bool.not_eq_true] at hsucc
            simp only [hsucc, Bool.false_eq_true, if_false]
            exact h4

/-- A placement call that fails leaves its own task recorded nowhere. -/
theorem PlaceTaskF_none_notPlaced (env : Env) (x : Nat) :
    ∀ (f p o : Nat) (s : SchedState), NotPlaced x s →
    (PlaceTaskF env f x p o s).2 = none →
    NotPlaced x (PlaceTaskF env f x p o s).1 := by
  intro f
  cases f with
  | zero => intro p o s h _; exact h
  | succ f =>
    intro p o s h hnone
    simp only [PlaceTaskF] at hnone ⊢
    refine placeAttempts_none_pres env x p o _
      (fun a b hc hb => NotPlaced_sameCore hc hb)
      (fun m0 s0 h0 => OffloadBody_pres env _ m0
        (fun a b hc hb => NotPlaced_sameCore hc hb)
        (fun vm i t2 s2 h2 => offloadEraseCommit_notPlaced env m0 vm i t2 h2)
        (fun vm t2 p2 o2 s2 h2 hmem =>
          PlaceTaskF_notPlaced_ne env x f t2 p2 o2 s2
            (fun heq => (h2 vm) (heq ▸ hmem)) h2) s0 h0) 3 s h hnone

/-! ### The offloading_in_progress guard and the ghost offload counter -/

theorem placeAttempts_offloading (env : Env) (task prio orig : Nat)
    (offload : Nat → SchedState → SchedState × Bool) :
    ∀ (a : Nat) (s : SchedState),
    (placeAttempts env task prio orig offload a s).1.offloading = s.offloading := by
  intro a
  induction a with
  | zero => intro s; rfl
  | succ a ih =>
    intro s
    simp only [placeAttempts]
    have hk := (tryPlacePass_keep env task prio orig s.sorted_machines s).2.2.1
    cases hres : (tryPlacePass env task prio orig s.sorted_machines s).2 with
    | some v => simp only [hres]; exact hk
    | none =>
      simp only [hres]
      by_cases hoff : (tryPlacePass env task prio orig s.sorted_machines s).1.offloading = true
      · simp only [hoff, if_true]
        exact hoff.symm.trans hk
      · simp only [Bool.not_eq_true] at hoff
        simp only [hoff, Bool.false_eq_true, if_false]
        rw [hoff] at hk
        cases htgt : selectOffloadTarget (setOffloading (tryPlacePass env task prio orig
            s.sorted_machines s).1 true) with
        | none => simp only [htgt, setOffloading_offloading]; exact hk
        | some tgt =>
          simp only [htgt]
          by_cases hsucc : (offload tgt (setOffloading (tryPlacePass env task prio orig
              s.sorted_machines s).1 true)).2 = true
          · simp only [hsucc, if_true]
            rw [ih]
            simp only [setOffloading_offloading]
            exact hk
          · simp only [Bool.not_eq_true] at hsucc
            simp only [hsucc, Bool.false_eq_true, if_false, setOffloading_offloading]
            exact hk

theorem PlaceTaskF_offloading (env : Env) :
    ∀ (f t p o : Nat) (s : SchedState),
    (PlaceTaskF env f t p o s).1.offloading = s.offloading := by
  intro f
  cases f with
  | zero => intro t p o s; rfl
  | succ f =>
    intro t p o s
    simp only [PlaceTaskF]
    exact placeAttempts_offloading env t p o _ 3 s

/-- With the guard flag raised, the attempt loop reduces to one scan and
performs no offload: the ghost counter is unchanged. -/
theorem placeAttempts_ghost_flagTrue (env : Env) (task prio orig : Nat)
    (offload : Nat → SchedState → SchedState × Bool) :
    ∀ (a : Nat) (s : SchedState), s.offloading = true →
    (placeAttempts env task prio orig offload a s).1.offloadCalls = s.offloadCalls := by
  intro a
  cases a with
  | zero => intro s _; rfl
  | succ a =>
    intro s hflag
    simp only [placeAttempts]
    have hk := tryPlacePass_keep env task prio orig s.sorted_machines s
    cases hres : (tryPlacePass env task prio orig s.sorted_machines s).2 with
    | some v => simp only [hres]; exact hk.2.2.2.2
    | none =>
      simp only [hres]
      have hoff : (tryPlacePass env task prio orig s.sorted_machines s).1.offloading = true := by
        rw [hk.2.2.1]; exact hflag
      simp only [hoff, if_true]
      exact hk.2.2.2.2

theorem PlaceTaskF_ghost_flagTrue (env : Env) :
    ∀ (f t p o : Nat) (s : SchedState), s.offloading = true →
    (PlaceTaskF env f t p o s).1.offloadCalls = s.offloadCalls := by
  intro f
  cases f with
  | zero => intro t p o s _; rfl
  | succ f =>
    intro t p o s hflag
    simp only [PlaceTaskF]
    exact placeAttempts_ghost_flagTrue env t p o _ 3 s hflag

theorem offloadTaskLoop_ghost_flagTrue (env : Env) (f m vm : Nat) :
    ∀ (fuel i : Nat) (s : SchedState), s.offloading = true →
    (offloadTaskLoop env (PlaceTaskF env f) m vm fuel i s).1.offloading = true ∧
    (offloadTaskLoop env (PlaceTaskF env f) m vm fuel i s).1.offloadCalls
      = s.offloadCalls := by
  intro fuel
  induction fuel with
  | zero => intro i s h; exact ⟨h, rfl⟩
  | succ fuel ih =>
    intro i s hflag
    simp only [offloadTaskLoop]
    cases hget : (s.vm_tasks vm).get? i with
    | none => simp only [hget]; exact ⟨hflag, trivial⟩
    | some t =>
      simp only [hget]
      have hpf : (PlaceTaskF env f t (priorityOf t) m s).1.offloading = true := by
        rw [PlaceTaskF_offloading]; exact hflag
      have hpg : (PlaceTaskF env f t (priorityOf t) m s).1.offloadCalls
          = s.offloadCalls := PlaceTaskF_ghost_flagTrue env f t (priorityOf t) m s hflag
      cases hres : (PlaceTaskF env f t (priorityOf t) m s).2 with
      | none =>
        simp only [hres]
        rcases ih (i + 1) _ hpf with ⟨g1, g2⟩
        exact ⟨g1, g2.trans hpg⟩
      | some v =>
        simp only [hres]
        exact ⟨hpf, hpg⟩

theorem offloadVMLoop_ghost_flagTrue (env : Env) (f m : Nat) :
    ∀ (l : List Nat) (s : SchedState), s.offloading = true →
    (offloadVMLoop env (PlaceTaskF env f) m l s).1.offloading = true ∧
    (offloadVMLoop env (PlaceTaskF env f) m l s).1.offloadCalls = s.offloadCalls := by
  intro l
  induction l with
  | nil => intro s h; exact ⟨h, rfl⟩
  | cons vm rest ih =>
    intro s hflag
    simp only [offloadVMLoop]
    rcases offloadTaskLoop_ghost_flagTrue env f m vm (s.vm_tasks vm).length 0 s hflag
      with ⟨g1, g2⟩
    split
    · exact ⟨g1, g2⟩
    · rcases ih _ g1 with ⟨k1, k2⟩
      exact ⟨k1, k2.trans g2⟩

/-- Each entry into the offload body with the guard raised bumps the ghost
counter by exactly one: the nested placements perform no further offload. -/
theorem OffloadBody_ghost_flagTrue (env : Env) (f m : Nat) (s : SchedState)
    (hflag : s.offloading = true) :
    (OffloadBody env (PlaceTaskF env f) m s).1.offloadCalls = s.offloadCalls + 1 := by
  unfold OffloadBody
  have hb : (bumpGhost s).offloading = true := hflag
  have := (offloadVMLoop_ghost_flagTrue env f m
    ((bumpGhost s).vms.filter (fun v => ((bumpGhost s).vm_location v).getD 0 == m))
    (bumpGhost s) hb).2
  simpa using this

theorem placeAttempts_ghost_bound (env : Env) (task prio orig f : Nat) :
    ∀ (a : Nat) (s : SchedState),
    (placeAttempts env task prio orig
      (fun m s0 => OffloadBody env (PlaceTaskF env f) m s0) a s).1.offloadCalls
      ≤ s.offloadCalls + a := by
  intro a
  induction a with
  | zero => intro s; exact Nat.le_add_right _ _
  | succ a ih =>
    intro s
    simp only [placeAttempts]
    have hk := (tryPlacePass_keep env task prio orig s.sorted_machines s).2.2.2.2
    cases hres : (tryPlacePass env task prio orig s.sorted_machines s).2 with
    | some v => simp only [hres]; omega
    | none =>
      simp only [hres]
      by_cases hoff : (tryPlacePass env task prio orig s.sorted_machines s).1.offloading = true
      · simp only [hoff, if_true]; omega
      · simp only [Bool.not_eq_true] at hoff
        simp only [hoff, Bool.false_eq_true, if_false]
        cases htgt : selectOffloadTarget (setOffloading (tryPlacePass env task prio orig
            s.sorted_machines s).1 true) with
        | none =>
          simp only [htgt, setOffloading_ghost]
          omega
        | some tgt =>
          simp only [htgt]
          have hg : (OffloadBody env (PlaceTaskF env f) tgt
              (setOffloading (tryPlacePass env task prio orig
                s.sorted_machines s).1 true)).1.offloadCalls
              = (tryPlacePass env task prio orig s.sorted_machines s).1.offloadCalls
                + 1 := by
            have := OffloadBody_ghost_flagTrue env f tgt
              (setOffloading (tryPlacePass env task prio orig s.sorted_machines s).1
                true) rfl
            simpa using this
          by_cases hsucc : (OffloadBody env (PlaceTaskF env f) tgt
              (setOffloading (tryPlacePass env task prio orig
                s.sorted_machines s).1 true)).2 = true
          · simp only [hsucc, if_true]
            have hrec := ih (setOffloading (OffloadBody env (PlaceTaskF env f) tgt
              (setOffloading (tryPlacePass env task prio orig
                s.sorted_machines s).1 true)).1 false)
            simp only [setOffloading_ghost] at hrec
            omega
          · simp only [Bool.not_eq_true] at hsucc
            simp only [hsucc, Bool.false_eq_true, if_false, setOffloading_ghost]
            omega

/-- Every placement call performs at most 3 offload attempts. -/
theorem PlaceTaskF_ghost_bound (env : Env) :
    ∀ (f t p o : Nat) (s : SchedState),
    (PlaceTaskF env f t p o s).1.offloadCalls ≤ s.offloadCalls + 3 := by
  intro f
  cases f with
  | zero => intro t p o s; exact Nat.le_add_right _ _
  | succ f =>
    intro t p o s
    simp only [PlaceTaskF]
    exact placeAttempts_ghost_bound env t p o f 3 s

/-! ### Postconditions of a successful placement -/

theorem placeAttempts_success (env : Env) (task prio orig : Nat)
    (offload : Nat → SchedState → SchedState × Bool) :
    ∀ (a : Nat) (s s' : SchedState) (v : Nat),
    placeAttempts env task prio orig offload a s = (s', some v) →
    (env.machineInfo (vmHost s' v)).cpu = env.taskCPU task ∧
    vmHost s' v ≠ orig ∧ task ∈ s'.vm_tasks v := by
  intro a
  induction a with
  | zero => intro s s' v h; simp [placeAttempts] at h
  | succ a ih =>
    intro s s' v h
    simp only [placeAttempts] at h
    cases hres : (tryPlacePass env task prio orig s.sorted_machines s).2 with
    | some v0 =>
      simp only [hres] at h
      have h1 : (tryPlacePass env task prio orig s.sorted_machines s).1 = s' :=
        congrArg Prod.fst h
      have h2 : v0 = v := by
        have := congrArg Prod.snd h
        simpa using this
      subst h1; subst h2
      rcases (tryPlacePass_spec env task prio orig s.sorted_machines s).2 v0 hres with
        ⟨m, _, e2, e3, e4, _, _, e7, _⟩
      rw [e2]
      exact ⟨e3, e4, e7⟩
    | none =>
      simp only [hres] at h
      by_cases hoff : (tryPlacePass env task prio orig s.sorted_machines s).1.offloading = true
      · simp only [hoff, if_true] at h
        simp at h
      · simp only [Bool.not_eq_true] at hoff
        simp only [hoff, Bool.false_eq_true, if_false] at h
        cases htgt : selectOffloadTarget (setOffloading (tryPlacePass env task prio orig
            s.sorted_machines s).1 true) with
        | none => simp only [htgt] at h; simp at h
        | some tgt =>
          simp only [htgt] at h
          by_cases hsucc : (offload tgt (setOffloading (tryPlacePass env task prio orig
              s.sorted_machines s).1 true)).2 = true
          · simp only [hsucc, if_true] at h
            exact ih _ _ _ h
          · simp only [Bool.not_eq_true] at hsucc
            simp only [hsucc, Bool.false_eq_true, if_false] at h
            simp at h

/-- A successful placement always lands on a CPU-compatible machine that is
not the excluded origin, and the task is attached within the call. -/
theorem PlaceTaskF_success (env : Env) :
    ∀ (f t p o : Nat) (s s' : SchedState) (v : Nat),
    PlaceTaskF env f t p o s = (s', some v) →
    (env.machineInfo (vmHost s' v)).cpu = env.taskCPU t ∧
    vmHost s' v ≠ o ∧ t ∈ s'.vm_tasks v := by
  intro f
  cases f with
  | zero => intro t p o s s' v h; simp [PlaceTaskF] at h
  | succ f =>
    intro t p o s s' v h
    simp only [PlaceTaskF] at h
    exact placeAttempts_success env t p o _ 3 s s' v h

/-! ### Offload-target selection -/

theorem offloadDen_pos (s : SchedState) (m : Nat) : 0 < offloadDen s m := by
  unfold offloadDen
  split
  · exact Nat.one_pos
  · exact Nat.pos_of_ne_zero (by assumption)

/-- Transitivity of exact ratio comparison by cross-multiplication:
a/b <= c/d and c/d <= e/f give a/b <= e/f (denominators positive). -/
theorem cross_le_trans {a b c d e f : Nat} (hd : 0 < d)
    (h1 : a * d ≤ c * b) (h2 : c * f ≤ e * d) : a * f ≤ e * b := by
  have key : a * f * d ≤ e * b * d := by
    calc a * f * d = a * d * f := by ring
    _ ≤ c * b * f := Nat.mul_le_mul_right f h1
    _ = c * f * b := by ring
    _ ≤ e * d * b := Nat.mul_le_mul_right b h2
    _ = e * b * d := by ring
  exact Nat.le_of_mul_le_mul_right key hd

/-- The exact cross-multiplication comparison satisfies every property the
selection proofs need. -/
theorem exactRatioCmp_ok : RatioCmpOK exactRatioCmp := by
  refine ⟨?_, ?_, ?_, ?_, ?_⟩
  · intro d w hd
    simp [exactRatioCmp]
  · intro n d hn hd
    simp [exactRatioCmp, hn]
  · intro n d hd
    simp [exactRatioCmp]
  · intro a b w h1 h2
    simp only [exactRatioCmp, decide_eq_false_iff_not, Nat.not_lt] at h1 ⊢
    simp only [exactRatioCmp, decide_eq_true_eq] at h2
    rcases Nat.eq_zero_or_pos w.2 with hw2 | hw2
    · rw [hw2, Nat.mul_zero] at h2
      exact absurd h2 (Nat.not_lt_zero _)
    · exact cross_le_trans hw2 h1 (le_of_lt h2)
  · intro a
    simp [exactRatioCmp]

theorem selGoC_spec (cmp : RatioCmp) (hok : RatioCmpOK cmp) (s : SchedState) :
    ∀ (l : List Nat) (w : Nat × Nat) (tgt : Option Nat),
    (tgt = none → w = (0, 1)) →
    (∀ t0, tgt = some t0 →
      w = (s.machine_mem_usage t0, offloadDen s t0) ∧ offloadWorthy s t0) →
    (∀ m, selGoC cmp s l w tgt = some m →
      (m ∈ l ∨ tgt = some m) ∧ offloadWorthy s m ∧
      (∀ a, cmp.gt a w = false →
        cmp.gt a (s.machine_mem_usage m, offloadDen s m) = false) ∧
      (∀ m2 ∈ l, offloadWorthy s m2 →
        cmp.gt (s.machine_mem_usage m2, offloadDen s m2)
          (s.machine_mem_usage m, offloadDen s m) = false)) ∧
    (selGoC cmp s l w tgt = none → tgt = none ∧ ∀ m2 ∈ l, ¬ offloadWorthy s m2) := by
  obtain ⟨hz, hp, hlt, hmono, hirr⟩ := hok
  intro l
  induction l with
  | nil =>
    intro w tgt hnone hsome
    constructor
    · intro m hm
      simp only [selGoC] at hm
      rcases hsome m hm with ⟨e1, e2⟩
      subst e1
      refine ⟨Or.inr hm, e2, fun a ha => ha, ?_⟩
      intro m2 hm2
      simp at hm2
    · intro hn
      simp only [selGoC] at hn
      exact ⟨hn, by simp⟩
  | cons m0 rest ih =>
    intro w tgt hnone hsome
    simp only [selGoC]
    by_cases hsel : (cmp.gt (s.machine_mem_usage m0, offloadDen s m0) w &&
        cmp.lt1 (s.machine_mem_usage m0, offloadDen s m0)) = true
    · rw [if_pos hsel]
      rcases (Bool.and_eq_true _ _).mp hsel with ⟨hgt, hlt1⟩
      have hn0pos : 0 < s.machine_mem_usage m0 := by
        by_contra hz0
        have hzz : s.machine_mem_usage m0 = 0 := by omega
        rw [hzz] at hgt
        rw [hz (offloadDen s m0) w (offloadDen_pos s m0)] at hgt
        cases hgt
      have hw0 : offloadWorthy s m0 :=
        ⟨hn0pos, (hlt _ _ (offloadDen_pos s m0)).mp hlt1⟩
      have hpre := ih (s.machine_mem_usage m0, offloadDen s m0) (some m0)
        (fun hc => by cases hc)
        (fun t0 ht0 => by
          have hmt : m0 = t0 := by injection ht0
          subst hmt
          exact ⟨rfl, hw0⟩)
      constructor
      · intro m hm
        rcases hpre.1 m hm with ⟨c1, c2, c3, c4⟩
        refine ⟨?_, c2, ?_, ?_⟩
        · rcases c1 with c1 | c1
          · exact Or.inl (List.mem_cons_of_mem m0 c1)
          · have hmm : m0 = m := by injection c1
            exact Or.inl (hmm ▸ List.mem_cons_self m0 rest)
        · intro a ha
          exact c3 a (hmono a _ w ha hgt)
        · intro m2 hm2 hw2
          rcases List.mem_cons.mp hm2 with hm2 | hm2
          · subst hm2
            exact c3 _ (hirr _)
          · exact c4 m2 hm2 hw2
      · intro hn
        rcases hpre.2 hn with ⟨habs, _⟩
        cases habs
    · rw [if_neg hsel]
      have hpre := ih w tgt hnone hsome
      constructor
      · intro m hm
        rcases hpre.1 m hm with ⟨c1, c2, c3, c4⟩
        refine ⟨?_, c2, c3, ?_⟩
        · rcases c1 with c1 | c1
          · exact Or.inl (List.mem_cons_of_mem m0 c1)
          · exact Or.inr c1
        · intro m2 hm2 hw2
          rcases List.mem_cons.mp hm2 with hm2 | hm2
          · subst hm2
            have hlt1 : cmp.lt1 (s.machine_mem_usage m2, offloadDen s m2) = true :=
              (hlt _ _ (offloadDen_pos s m2)).mpr hw2.2
            have hgt0 : cmp.gt (s.machine_mem_usage m2, offloadDen s m2) w = false := by
              by_contra hgb
              rw [Bool.not_eq_false] at hgb
              exact hsel (by rw [Bool.and_eq_true]; exact ⟨hgb, hlt1⟩)
            exact c3 _ hgt0
          · exact c4 m2 hm2 hw2
      · intro hn
        rcases hpre.2 hn with ⟨h1, h2⟩
        refine ⟨h1, ?_⟩
        intro m2 hm2
        rcases List.mem_cons.mp hm2 with hm2 | hm2
        · subst hm2
          intro hw2
          apply hsel
          rw [Bool.and_eq_true]
          constructor
          · rw [hnone h1]
            exact hp _ _ hw2.1 (offloadDen_pos s m2)
          · exact (hlt _ _ (offloadDen_pos s m2)).mpr hw2.2
        · exact h2 m2 hm2

/-- Characterisation of the offload-target selection, valid for every
admissible ratio comparison: a chosen target is a scanned machine with
ratio strictly between 0 and 1 which no other such machine beats under the
comparison, and a target exists exactly when some scanned machine has ratio
strictly between 0 and 1. -/
theorem selectOffloadTargetC_spec (cmp : RatioCmp) (hok : RatioCmpOK cmp)
    (s : SchedState) :
    (∀ m, selectOffloadTargetC cmp s = some m →
      m ∈ s.sorted_machines ∧ offloadWorthy s m ∧
      (∀ m2 ∈ s.sorted_machines, offloadWorthy s m2 →
        cmp.gt (s.machine_mem_usage m2, offloadDen s m2)
          (s.machine_mem_usage m, offloadDen s m) = false)) ∧
    (selectOffloadTargetC cmp s = none ↔
      ∀ m2 ∈ s.sorted_machines, ¬ offloadWorthy s m2) := by
  have h := selGoC_spec cmp hok s s.sorted_machines (0, 1) none (fun _ => rfl)
    (fun t0 ht0 => by cases ht0)
  constructor
  · intro m hm
    rcases h.1 m hm with ⟨c1, c2, _, c4⟩
    refine ⟨?_, c2, c4⟩
    rcases c1 with c1 | c1
    · exact c1
    · cases c1
  · constructor
    · intro hn
      exact (h.2 hn).2
    · intro hall
      cases hres : selectOffloadTargetC cmp s with
      | none => rfl
      | some m =>
        rcases h.1 m hres with ⟨c1, c2, _, _⟩
        rcases c1 with c1 | c1
        · exact absurd c2 (hall m c1)
        · cases c1

/-! ### The periodic idle-consolidation check -/

theorem usub64_self (a : Nat) : usub64 a a = 0 := by
  unfold usub64
  have h1 : a % W64 < W64 := Nat.mod_lt _ (by norm_num [W64])
  have h2 : a % W64 + (W64 - a % W64) = W64 := by omega
  rw [h2]
  exact Nat.mod_self W64

theorem IDLE_GRACE_PERIOD_pos : 0 < IDLE_GRACE_PERIOD := by
  norm_num [IDLE_GRACE_PERIOD]

/-- The power-down condition of one periodic step: the only command it can
append is Machine_SetState(m0, S5), and only when the machine descriptor
shows zero tasks, zero VMs, state S0i1, and the idle timer for m0 expired. -/
theorem periodicStep_cmds (env : Env) (now m0 : Nat) (s : SchedState) :
    (Scheduler.periodicStep env now m0 s).cmds = s.cmds ∨
    ((Scheduler.periodicStep env now m0 s).cmds = s.cmds ++ [Cmd.setState m0 S5] ∧
      (env.machineInfo m0).active_tasks = 0 ∧ (env.machineInfo m0).active_vms = 0 ∧
      (env.machineInfo m0).s_state = S0i1 ∧
      ∃ t0, s.idle_start m0 = some t0 ∧ IDLE_GRACE_PERIOD ≤ usub64 now t0) := by
  simp only [Scheduler.periodicStep]
  by_cases hact : 0 < (env.machineInfo m0).active_tasks ∨ 0 < (env.machineInfo m0).active_vms
  · simp only [if_pos hact]; exact Or.inl (by trivial)
  · simp only [if_neg hact]
    cases hid : s.idle_start m0 with
    | none => simp only [hid]; exact Or.inl (by trivial)
    | some t0 =>
      simp only [hid]
      by_cases hg : IDLE_GRACE_PERIOD ≤ usub64 now t0
      · simp only [if_pos hg]
        by_cases hc : (env.machineInfo m0).active_tasks = 0 ∧
            (env.machineInfo m0).active_vms = 0 ∧ (env.machineInfo m0).s_state = S0i1
        · simp only [if_pos hc]
          exact Or.inr ⟨by trivial, hc.1, hc.2.1, hc.2.2, t0, by trivial, hg⟩
        · simp only [if_neg hc]; exact Or.inl (by trivial)
      · simp only [if_neg hg]; exact Or.inl (by trivial)

/-- One periodic step leaves any idle timer either unchanged, cleared, or
armed at the current time. -/
theorem periodicStep_idle (env : Env) (now m0 : Nat) (s : SchedState) (x : Nat) :
    (Scheduler.periodicStep env now m0 s).idle_start x = s.idle_start x ∨
    (Scheduler.periodicStep env now m0 s).idle_start x = none ∨
    (Scheduler.periodicStep env now m0 s).idle_start x = some now := by
  simp only [Scheduler.periodicStep]
  by_cases hact : 0 < (env.machineInfo m0).active_tasks ∨ 0 < (env.machineInfo m0).active_vms
  · simp only [if_pos hact, upd_apply]
    split
    · exact Or.inr (Or.inl rfl)
    · exact Or.inl (by trivial)
  · simp only [if_neg hact]
    cases hid : s.idle_start m0 with
    | none =>
      simp only [hid, upd_apply]
      split
      · exact Or.inr (Or.inr rfl)
      · exact Or.inl (by trivial)
    | some t0 =>
      simp only [hid]
      by_cases hg : IDLE_GRACE_PERIOD ≤ usub64 now t0
      · simp only [if_pos hg]
        by_cases hc : (env.machineInfo m0).active_tasks = 0 ∧
            (env.machineInfo m0).active_vms = 0 ∧ (env.machineInfo m0).s_state = S0i1
        · simp only [if_pos hc, upd_apply]
          split
          · exact Or.inr (Or.inl rfl)
          · exact Or.inl (by trivial)
        · simp only [if_neg hc, upd_apply]
          split
          · exact Or.inr (Or.inl rfl)
          · exact Or.inl (by trivial)
      · simp only [if_neg hg]; exact Or.inl (by trivial)

/-- Over the whole periodic scan: a power-down command for machine m can
only be emitted under the conditions the spec states, measured against the
state at the start of the scan. -/
theorem PeriodicCheckGo_fire (env : Env) (now m : Nat) :
    ∀ (l : List Nat) (s : SchedState),
    Cmd.setState m S5 ∈ (Scheduler.PeriodicCheckGo env now l s).cmds →
    Cmd.setState m S5 ∈ s.cmds ∨
      ((env.machineInfo m).active_tasks = 0 ∧ (env.machineInfo m).active_vms = 0 ∧
       (env.machineInfo m).s_state = S0i1 ∧
       ∃ t0, s.idle_start m = some t0 ∧ IDLE_GRACE_PERIOD ≤ usub64 now t0) := by
  intro l
  induction l with
  | nil => intro s h; exact Or.inl h
  | cons m0 rest ih =>
    intro s h
    simp only [Scheduler.PeriodicCheckGo] at h
    rcases ih (Scheduler.periodicStep env now m0 s) h with hmem | hfire
    · rcases periodicStep_cmds env now m0 s with hc | ⟨hc, f1, f2, f3, t0, f4, f5⟩
      · rw [hc] at hmem; exact Or.inl hmem
      · rw [hc] at hmem
        rcases List.mem_append.mp hmem with hmem | hmem
        · exact Or.inl hmem
        · have : Cmd.setState m S5 = Cmd.setState m0 S5 := List.mem_singleton.mp hmem
          have hmm : m = m0 := by injection this
          subst hmm
          exact Or.inr ⟨f1, f2, f3, t0, f4, f5⟩
    · rcases hfire with ⟨f1, f2, f3, t0, f4, f5⟩
      rcases periodicStep_idle env now m0 s m with hi | hi | hi
      · rw [hi] at f4
        exact Or.inr ⟨f1, f2, f3, t0, f4, f5⟩
      · rw [hi] at f4; cases f4
      · rw [hi] at f4
        have : t0 = now := by injection f4 with f4; exact f4.symm
        subst this
        rw [usub64_self] at f5
        exact absurd f5 (Nat.not_le.mpr IDLE_GRACE_PERIOD_pos)

/-- A machine whose descriptor shows running tasks has its idle timer
cleared by the scan (and untouched if it is not scanned). -/
theorem PeriodicCheckGo_abort (env : Env) (now m : Nat)
    (hact : 0 < (env.machineInfo m).active_tasks) :
    ∀ (l : List Nat) (s : SchedState),
    (Scheduler.PeriodicCheckGo env now l s).idle_start m
      = (if m ∈ l then none else s.idle_start m) := by
  intro l
  induction l with
  | nil => intro s; simp [Scheduler.PeriodicCheckGo]
  | cons m0 rest ih =>
    intro s
    simp only [Scheduler.PeriodicCheckGo]
    rw [ih (Scheduler.periodicStep env now m0 s)]
    by_cases hm : m ∈ rest
    · rw [if_pos hm, if_pos (List.mem_cons_of_mem m0 hm)]
    · rw [if_neg hm]
      by_cases hmm : m = m0
      · subst hmm
        rw [if_pos (List.mem_cons_self m rest)]
        simp only [Scheduler.periodicStep]
        rw [if_pos (Or.inl hact)]
        simp
      · rw [if_neg (by simp [hmm, hm] : ¬ m ∈ m0 :: rest)]
        simp only [Scheduler.periodicStep]
        by_cases hact0 : 0 < (env.machineInfo m0).active_tasks ∨
            0 < (env.machineInfo m0).active_vms
        · simp only [if_pos hact0, upd_apply, if_neg hmm]
        · simp only [if_neg hact0]
          cases hid : s.idle_start m0 with
          | none => simp only [hid, upd_apply, if_neg hmm]
          | some t0 =>
            simp only [hid]
            by_cases hg : IDLE_GRACE_PERIOD ≤ usub64 now t0
            · simp only [if_pos hg]
              by_cases hc : (env.machineInfo m0).active_tasks = 0 ∧
                  (env.machineInfo m0).active_vms = 0 ∧
                  (env.machineInfo m0).s_state = S0i1
              · simp only [if_pos hc, upd_apply, if_neg hmm]
              · simp only [if_neg hc, upd_apply, if_neg hmm]
            · simp only [if_neg hg]

/-! ### Initialization -/

theorem InitGo_keep (env : Env) :
    ∀ (l : List Nat) (s : SchedState),
    (Scheduler.InitGo env l s).sorted_machines = s.sorted_machines ∧
    (Scheduler.InitGo env l s).machine_util = s.machine_util ∧
    (Scheduler.InitGo env l s).machine_mem_usage = s.machine_mem_usage ∧
    (Scheduler.InitGo env l s).machine_mem_capacity = s.machine_mem_capacity := by
  intro l
  induction l with
  | nil => intro s; exact ⟨rfl, rfl, rfl, rfl⟩
  | cons m0 rest ih =>
    intro s
    simp only [Scheduler.InitGo]
    exact ih _

theorem InitGo_tasks (env : Env) :
    ∀ (l : List Nat) (s : SchedState) (v : Nat),
    (Scheduler.InitGo env l s).vm_tasks v = s.vm_tasks v ∨
    (Scheduler.InitGo env l s).vm_tasks v = [] := by
  intro l
  induction l with
  | nil => intro s v; exact Or.inl rfl
  | cons m0 rest ih =>
    intro s v
    simp only [Scheduler.InitGo]
    rcases ih _ v with h | h
    · rw [h]
      simp only [upd_apply]
      split
      · exact Or.inr rfl
      · exact Or.inl rfl
    · exact Or.inr h

theorem SortMachinesByEnergy_mem (env : Env) (m : Nat) :
    m ∈ Scheduler.SortMachinesByEnergy env ↔ m < env.total := by
  unfold Scheduler.SortMachinesByEnergy
  rw [(List.perm_insertionSort _ _).mem_iff]
  exact List.mem_range

theorem SortMachinesByEnergy_sorted (env : Env) :
    List.Sorted (fun a b => env.energy a ≤ env.energy b)
      (Scheduler.SortMachinesByEnergy env) := by
  haveI : IsTotal Nat (fun a b => env.energy a ≤ env.energy b) :=
    ⟨fun a b => Nat.le_total _ _⟩
  haveI : IsTrans Nat (fun a b => env.energy a ≤ env.energy b) :=
    ⟨fun a b c hab hbc => Nat.le_trans hab hbc⟩
  exact List.sorted_insertionSort _ _

theorem Init_memCap (env : Env)
    (hinit : ∀ m, m < env.total →
      (env.machineInfo m).memory_used ≤ (env.machineInfo m).memory_size) :
    MemCapInv (Scheduler.Init env) := by
  intro m hm
  unfold Scheduler.Init at hm ⊢
  rcases InitGo_keep env ((Scheduler.SortMachinesByEnergy env).take
    Scheduler.active_machines) _ with ⟨k1, k2, k3, k4⟩
  rw [k1] at hm
  rw [k3, k4]
  simp only at hm ⊢
  have hlt : m < env.total := (SortMachinesByEnergy_mem env m).mp hm
  rw [if_pos hlt, if_pos hlt]
  exact hinit m hlt

theorem Init_vmCap (env : Env) : VMCapInv (Scheduler.Init env) := by
  intro v hv
  unfold Scheduler.Init
  rcases InitGo_tasks env ((Scheduler.SortMachinesByEnergy env).take
    Scheduler.active_machines) _ v with h | h
  · rw [h]
    simp [MAX_TASKS_PER_VM]
  · rw [h]
    simp [MAX_TASKS_PER_VM]

theorem Init_utilCap (env : Env) : UtilCapInv (Scheduler.Init env) := by
  intro m hm
  unfold Scheduler.Init
  rcases InitGo_keep env ((Scheduler.SortMachinesByEnergy env).take
    Scheduler.active_machines) _ with ⟨_, k2, _, _⟩
  rw [k2]
  simp [MAX_TASKS_PER_VM]

/-! ### Completion bookkeeping -/

/-- A completion for a task the tracker never recorded changes nothing. -/
theorem TaskCompleteGo_noop (env : Env) (task : Nat) :
    ∀ (l : List Nat) (s : SchedState),
    (∀ v ∈ l, task ∉ s.vm_tasks v) →
    Scheduler.TaskCompleteGo env task l s = s := by
  intro l
  induction l with
  | nil => intro s _; rfl
  | cons v rest ih =>
    intro s h
    simp only [Scheduler.TaskCompleteGo]
    rw [if_neg (h v (List.mem_cons_self v rest))]
    exact ih s (fun v' hv' => h v' (List.mem_cons_of_mem v hv'))

/-- The completion bookkeeping never increases any counter: both guarded
decrements clamp, so no unsigned counter can wrap around. -/
theorem TaskCompleteGo_mono (env : Env) (task : Nat) :
    ∀ (l : List Nat) (s : SchedState) (m : Nat),
    (Scheduler.TaskCompleteGo env task l s).machine_util m ≤ s.machine_util m ∧
    (Scheduler.TaskCompleteGo env task l s).machine_mem_usage m
      ≤ s.machine_mem_usage m := by
  intro l
  induction l with
  | nil => intro s m; exact ⟨le_refl _, le_refl _⟩
  | cons v rest ih =>
    intro s m
    simp only [Scheduler.TaskCompleteGo]
    split
    · constructor
      · simp only [upd_apply]
        split
        · next he => rw [he]; split <;> omega
        · exact le_refl _
      · simp only [upd_apply]
        split
        · next he => rw [he]; exact clampSub_le _ _
        · exact le_refl _
    · exact ih s m

/-! ### Claim C1 -/

/-- C1 counterexample: with fixture envA/stA the placement of task 5 fails
(PlaceTask_PMapper returns INVALID_VM), yet NewTask returns the scheduler
state exactly unchanged: the task is recorded nowhere, no deferral record
exists, and no future event can retry it.  The task is silently dropped,
refuting the claim. -/
theorem C1_counterexample :
    (PlaceTask_PMapper envA 5 (priorityOf 5) NO_MACHINE stA).2 = none ∧
    Scheduler.NewTask envA 0 5 stA = stA := by
  exact ⟨rfl, rfl⟩

/-- C1 (amended): a task for which placement finds no qualifying host is
dropped, not deferred: NewTask only logs an SLA violation, and after the
handler the task is recorded in no container.  The scheduler state — the
complete set of file-scope variables of Scheduler.cpp — contains no
deferral queue and no retry mechanism. -/
theorem C1_amended_dropped (env : Env) (now task : Nat) (s : SchedState)
    (hnp : NotPlaced task s)
    (hfail : (PlaceTask_PMapper env task (priorityOf task) NO_MACHINE s).2 = none) :
    NotPlaced task (Scheduler.NewTask env now task s) := by
  unfold Scheduler.NewTask
  exact PlaceTaskF_none_notPlaced env task 3 (priorityOf task) NO_MACHINE s hnp hfail

theorem C1_witness : NotPlaced 5 (Scheduler.NewTask envA 0 5 stA) :=
  C1_amended_dropped envA 0 5 stA (fun v => List.not_mem_nil 5) rfl

/-! ### Claim C2 -/

/-- C2 counterexample: with fixture envB/stB machine 0 is powered off (S5),
yet placement issues the Machine_SetState(S0) request and attaches task 7
to VM 0 on that machine within the same call; and the machine-ready handler
StateChangeComplete does nothing at all.  No PendingWake record is stored,
nothing is drained later, refuting the claim. -/
theorem C2_counterexample :
    (envB.machineInfo 0).s_state = S5 ∧
    (PlaceTask_PMapper envB 7 MID_PRIORITY NO_MACHINE stB).2 = some 0 ∧
    Cmd.setState 0 S0 ∈ (PlaceTask_PMapper envB 7 MID_PRIORITY NO_MACHINE stB).1.cmds ∧
    7 ∈ (PlaceTask_PMapper envB 7 MID_PRIORITY NO_MACHINE stB).1.vm_tasks 0 ∧
    StateChangeComplete envB 1 0
        (PlaceTask_PMapper envB 7 MID_PRIORITY NO_MACHINE stB).1
      = (PlaceTask_PMapper envB 7 MID_PRIORITY NO_MACHINE stB).1 := by
  exact ⟨rfl, rfl, by decide, by decide, rfl⟩

/-- C2 (amended): provisioning is synchronous from the placement call's
point of view: a successful placement attaches the task within the same
call (even to a machine that was observed powered off, for which a
Machine_SetState(S0) request was just issued), and the machine-ready
handler StateChangeComplete is the identity on the scheduler state — there
is no PendingWake record and nothing to drain. -/
theorem C2_amended_synchronous (env : Env) (now m task prio orig : Nat)
    (s s' : SchedState) (v : Nat)
    (h : PlaceTask_PMapper env task prio orig s = (s', some v)) :
    task ∈ s'.vm_tasks v ∧ StateChangeComplete env now m s' = s' :=
  ⟨(PlaceTaskF_success env 3 task prio orig s s' v h).2.2, rfl⟩

theorem C2_witness :
    7 ∈ (PlaceTask_PMapper envB 7 MID_PRIORITY NO_MACHINE stB).1.vm_tasks 0 ∧
    StateChangeComplete envB 1 0
        (PlaceTask_PMapper envB 7 MID_PRIORITY NO_MACHINE stB).1
      = (PlaceTask_PMapper envB 7 MID_PRIORITY NO_MACHINE stB).1 :=
  C2_amended_synchronous envB 1 0 7 MID_PRIORITY NO_MACHINE stB
    (PlaceTask_PMapper envB 7 MID_PRIORITY NO_MACHINE stB).1 0 rfl

/-! ### Claim C3 -/

/-- C3: the capacity invariant — tracked memory usage within tracked
capacity on every tracked machine, and at most MAX_TASKS_PER_VM task ids in
every container — is established by Init (whenever the collaborator reports
memory_used ≤ memory_size) and preserved by every event handler; moreover
the placement scan commits only to a machine whose projected usage
(tracked used + task memory) fits within tracked capacity, and writes
exactly that projected value. -/
theorem C3_capacity_invariant (env : Env) (e : Event) (s : SchedState)
    (hinit : ∀ m, m < env.total →
      (env.machineInfo m).memory_used ≤ (env.machineInfo m).memory_size)
    (hs : CapacityInv s) :
    CapacityInv (step env e s) ∧ CapacityInv (Scheduler.Init env) ∧
    (∀ task prio orig l s' v,
      tryPlacePass env task prio orig l s = (s', some v) →
      ∃ m, vmHost s' v = m ∧
        projectedMem env s m task ≤ s.machine_mem_capacity m ∧
        s'.machine_mem_usage m = projectedMem env s m task) := by
  refine ⟨⟨step_memCap env e s hs.1, step_vmCap env e s hs.2⟩,
    ⟨Init_memCap env hinit, Init_vmCap env⟩, ?_⟩
  intro task prio orig l s' v h
  have h2 : (tryPlacePass env task prio orig l s).2 = some v := by rw [h]
  rcases (tryPlacePass_spec env task prio orig l s).2 v h2 with
    ⟨m, _, e2, _, _, _, _, _, e8, e9, _⟩
  rw [h] at e2 e8
  exact ⟨m, e2, e9, e8⟩

theorem C3_witness :
    CapacityInv (step envA (Event.taskComplete 0 5) stA) ∧
    CapacityInv (Scheduler.Init envA) :=
  ⟨(C3_capacity_invariant envA (Event.taskComplete 0 5) stA
      (by decide) (by unfold CapacityInv MemCapInv VMCapInv; decide)).1,
   (C3_capacity_invariant envA (Event.taskComplete 0 5) stA
      (by decide) (by unfold CapacityInv MemCapInv VMCapInv; decide)).2.1⟩

/-! ### Claim C4 -/

/-- C4 counterexample: with fixture envC/stC, VM 1 on machine 1 is a
zero-load container on a fully qualifying machine, while VM 0 on machine 0
already carries five tasks; placement nevertheless picks VM 0 because
machine 0 comes first in the energy-sorted scan.  The claimed preference
for a zero-load container (and for the least-loaded machine) does not
exist. -/
theorem C4_counterexample :
    (PlaceTask_PMapper envC 7 MID_PRIORITY NO_MACHINE stC).2 = some 0 ∧
    stC.vm_tasks 0 = [1, 2, 3, 4, 5] ∧
    stC.vm_tasks 1 = [] ∧
    vmHost stC 1 = 1 ∧
    machineQualifies envC 7 NO_MACHINE stC 1 = true := by
  exact ⟨rfl, rfl, rfl, rfl, by decide⟩

/-- C4 (amended): the scan is plain first-fit in energy order: placement
succeeds iff some machine in the scan list passes the four admission
filters, the machine committed to is the first such machine, the container
used is the first one on it with room (else a fresh container), and the
scan list fixed at Init is sorted by ascending machine energy.  There is no
zero-load or least-loaded preference. -/
theorem C4_amended_first_fit (env : Env) (task prio orig : Nat) (l : List Nat)
    (s : SchedState) :
    ((tryPlacePass env task prio orig l s).2 = none ↔
      l.find? (machineQualifies env task orig s) = none) ∧
    (∀ v, (tryPlacePass env task prio orig l s).2 = some v →
      ∃ m, l.find? (machineQualifies env task orig s) = some m ∧
        vmHost (tryPlacePass env task prio orig l s).1 v = m ∧
        (s.vms.find? (vmFits s m) = some v ∨
          (s.vms.find? (vmFits s m) = none ∧ v = s.next_vm))) ∧
    List.Sorted (fun a b => env.energy a ≤ env.energy b)
      (Scheduler.Init env).sorted_machines := by
  refine ⟨(tryPlacePass_spec env task prio orig l s).1, ?_, ?_⟩
  · intro v hv
    rcases (tryPlacePass_spec env task prio orig l s).2 v hv with
      ⟨m, e1, e2, _, _, _, _, _, _, _, e10⟩
    exact ⟨m, e1, e2, e10⟩
  · simp only [Scheduler.Init]
    rcases InitGo_keep env ((Scheduler.SortMachinesByEnergy env).take
      Scheduler.active_machines) _ with ⟨k1, _, _, _⟩
    rw [k1]
    exact SortMachinesByEnergy_sorted env

theorem C4_witness :
    ∃ m, stC.sorted_machines.find? (machineQualifies envC 7 NO_MACHINE stC) = some m ∧
      vmHost (tryPlacePass envC 7 MID_PRIORITY NO_MACHINE stC.sorted_machines stC).1 0
        = m ∧
      (stC.vms.find? (vmFits stC m) = some 0 ∨
        (stC.vms.find? (vmFits stC m) = none ∧ 0 = stC.next_vm)) :=
  (C4_amended_first_fit envC 7 MID_PRIORITY NO_MACHINE stC.sorted_machines stC).2.1 0 rfl

/-! ### Claim C5 -/

/-- C5: the periodic check emits Machine_SetState(m, S5) only when the idle
timer of m was armed at least IDLE_GRACE_PERIOD before now and the
re-fetched machine descriptor confirms zero active tasks and zero attached
VMs (and power state S0i1); and a machine whose descriptor shows a running
task is never powered down by the check and has its idle timer cleared. -/
theorem C5_idle_shutdown (env : Env) (now m : Nat) (s : SchedState) :
    (Cmd.setState m S5 ∈ (Scheduler.PeriodicCheck env now s).cmds →
      Cmd.setState m S5 ∈ s.cmds ∨
        ((env.machineInfo m).active_tasks = 0 ∧ (env.machineInfo m).active_vms = 0 ∧
         (env.machineInfo m).s_state = S0i1 ∧
         ∃ t0, s.idle_start m = some t0 ∧ IDLE_GRACE_PERIOD ≤ usub64 now t0)) ∧
    (0 < (env.machineInfo m).active_tasks →
      (Cmd.setState m S5 ∈ (Scheduler.PeriodicCheck env now s).cmds →
        Cmd.setState m S5 ∈ s.cmds) ∧
      (m ∈ s.sorted_machines →
        (Scheduler.PeriodicCheck env now s).idle_start m = none)) := by
  constructor
  · exact PeriodicCheckGo_fire env now m s.sorted_machines s
  · intro hact
    constructor
    · intro hmem
      rcases PeriodicCheckGo_fire env now m s.sorted_machines s hmem with h | h
      · exact h
      · exact absurd h.1 (by omega)
    · intro hml
      unfold Scheduler.PeriodicCheck
      rw [PeriodicCheckGo_abort env now m hact s.sorted_machines s, if_pos hml]

theorem C5_witness :
    (Cmd.setState 0 S5 ∈ stD.cmds ∨
      ((envD.machineInfo 0).active_tasks = 0 ∧ (envD.machineInfo 0).active_vms = 0 ∧
       (envD.machineInfo 0).s_state = S0i1 ∧
       ∃ t0, stD.idle_start 0 = some t0 ∧
         IDLE_GRACE_PERIOD ≤ usub64 200000 t0)) ∧
    (Scheduler.PeriodicCheck envE 100 stE).idle_start 0 = none :=
  ⟨(C5_idle_shutdown envD 200000 0 stD).1 (by decide),
   ((C5_idle_shutdown envE 100 0 stE).2 (by decide)).2 (by decide)⟩

/-! ### Claim C6 -/

/-- C6: within one placement call the offload procedure is entered at most
3 times, and the offloading_in_progress guard makes a placement performed
while an offload is already running execute zero offloads, so the mutual
recursion between placement and offload is bounded; the call is a total
function that returns INVALID_VM (modelled none) when everything fails
instead of retrying further. -/
theorem C6_offload_bounded (env : Env) (task prio orig : Nat) (s : SchedState) :
    (PlaceTask_PMapper env task prio orig s).1.offloadCalls ≤ s.offloadCalls + 3 ∧
    (s.offloading = true →
      (PlaceTask_PMapper env task prio orig s).1.offloadCalls = s.offloadCalls) :=
  ⟨PlaceTaskF_ghost_bound env 3 task prio orig s,
   fun h => PlaceTaskF_ghost_flagTrue env 3 task prio orig s h⟩

theorem C6_witness :
    (PlaceTask_PMapper envA 5 MID_PRIORITY NO_MACHINE stF).1.offloadCalls
      ≤ stF.offloadCalls + 3 ∧
    (PlaceTask_PMapper envA 5 MID_PRIORITY NO_MACHINE stF).1.offloadCalls
      = stF.offloadCalls :=
  ⟨(C6_offload_bounded envA 5 MID_PRIORITY NO_MACHINE stF).1,
   (C6_offload_bounded envA 5 MID_PRIORITY NO_MACHINE stF).2 rfl⟩

/-! ### Claim C7 -/

/-- C7 counterexample: with fixture envA/stA machine 0 has tracked usage 0,
hence ratio 0/100 strictly below 1.0, so by the claim it is the
ratio-maximising machine below 100% and should be chosen as offload target;
but the selection returns no target (the scan demands a ratio strictly
above the initial 0.0), no offload is attempted, and the failing placement
performs zero offload calls. -/
theorem C7_counterexample :
    stA.machine_mem_usage 0 = 0 ∧
    stA.machine_mem_usage 0 < offloadDen stA 0 ∧
    selectOffloadTarget stA = none ∧
    (PlaceTask_PMapper envA 5 MID_PRIORITY NO_MACHINE stA).2 = none ∧
    (PlaceTask_PMapper envA 5 MID_PRIORITY NO_MACHINE stA).1.offloadCalls
      = stA.offloadCalls := by
  exact ⟨rfl, by decide, rfl, rfl, rfl⟩

/-- C7 (amended): when placement finds no candidate and considers offload,
any chosen target is a machine whose tracked memory ratio is strictly
between 0 and 1 — a machine at or above capacity, or with zero tracked
usage, is never chosen — and the chosen target is ratio-maximal under the
comparison the scan itself uses: no machine with ratio strictly between 0
and 1 compares strictly above it.  A target exists exactly when some
machine has ratio strictly between 0 and 1; when none does (in particular
when every machine is empty) no target exists, so no offload is attempted
and the attempt loop stops.  The statement is proved for every
ratio-comparison oracle satisfying RatioCmpOK — the properties correctly
rounded double division has on the 32-bit operands of the source — so it
does not depend on sub-ulp rounding behaviour; exactRatioCmp is the
executable instance. -/
theorem C7_amended_target (cmp : RatioCmp) (hok : RatioCmpOK cmp) (s : SchedState) :
    (∀ m, selectOffloadTargetC cmp s = some m →
      m ∈ s.sorted_machines ∧ 0 < s.machine_mem_usage m ∧
      s.machine_mem_usage m < offloadDen s m ∧
      (∀ m2 ∈ s.sorted_machines, offloadWorthy s m2 →
        cmp.gt (s.machine_mem_usage m2, offloadDen s m2)
          (s.machine_mem_usage m, offloadDen s m) = false)) ∧
    (selectOffloadTargetC cmp s = none ↔
      ∀ m2 ∈ s.sorted_machines, ¬ offloadWorthy s m2) := by
  rcases selectOffloadTargetC_spec cmp hok s with ⟨h1, h2⟩
  refine ⟨fun m hm => ?_, h2⟩
  rcases h1 m hm with ⟨c1, c2, c3⟩
  exact ⟨c1, c2.1, c2.2, c3⟩

theorem C7_witness :
    0 ∈ stG.sorted_machines ∧ 0 < stG.machine_mem_usage 0 ∧
    stG.machine_mem_usage 0 < offloadDen stG 0 ∧
    (∀ m2 ∈ stG.sorted_machines, offloadWorthy stG m2 →
      exactRatioCmp.gt (stG.machine_mem_usage m2, offloadDen stG m2)
        (stG.machine_mem_usage 0, offloadDen stG 0) = false) :=
  (C7_amended_target exactRatioCmp exactRatioCmp_ok stG).1 0 rfl

/-! ### Claim C8 -/

/-- C8: a placement that returns a VM placed it on a machine whose CPU type
equals the task's required CPU type, and that machine is never the
original_machine argument excluded by the offload path. -/
theorem C8_cpu_and_origin (env : Env) (task prio orig : Nat) (s s' : SchedState)
    (v : Nat) (h : PlaceTask_PMapper env task prio orig s = (s', some v)) :
    (env.machineInfo (vmHost s' v)).cpu = env.taskCPU task ∧
    vmHost s' v ≠ orig := by
  rcases PlaceTaskF_success env 3 task prio orig s s' v h with ⟨h1, h2, _⟩
  exact ⟨h1, h2⟩

theorem C8_witness :
    (envB.machineInfo (vmHost
        (PlaceTask_PMapper envB 7 MID_PRIORITY NO_MACHINE stB).1 0)).cpu
      = envB.taskCPU 7 ∧
    vmHost (PlaceTask_PMapper envB 7 MID_PRIORITY NO_MACHINE stB).1 0
      ≠ NO_MACHINE :=
  C8_cpu_and_origin envB 7 MID_PRIORITY NO_MACHINE stB
    (PlaceTask_PMapper envB 7 MID_PRIORITY NO_MACHINE stB).1 0 rfl

/-! ### Claim C9 -/

/-- C9: placement enforces a per-machine task-count cap: every commit
happens on a machine whose tracked count machine_util is strictly below
MAX_TASKS_PER_VM (10) and raises it by exactly one; the bound
machine_util ≤ 10 holds for every tracked machine after Init and is
preserved by every event handler. -/
theorem C9_machine_cap (env : Env) (e : Event) (s : SchedState) :
    (UtilCapInv s → UtilCapInv (step env e s)) ∧
    UtilCapInv (Scheduler.Init env) ∧
    (∀ task prio orig l s' v,
      tryPlacePass env task prio orig l s = (s', some v) →
      ∃ m, vmHost s' v = m ∧ s.machine_util m < MAX_TASKS_PER_VM ∧
        s'.machine_util m = s.machine_util m + 1) := by
  refine ⟨step_utilCap env e s, Init_utilCap env, ?_⟩
  intro task prio orig l s' v h
  have h2 : (tryPlacePass env task prio orig l s).2 = some v := by rw [h]
  rcases (tryPlacePass_spec env task prio orig l s).2 v h2 with
    ⟨m, _, e2, _, _, e5, e6, _, _, _, _⟩
  rw [h] at e2 e6
  exact ⟨m, e2, e5, e6⟩

theorem C9_witness :
    UtilCapInv (step envA (Event.taskComplete 0 5) stA) ∧
    (∃ m, vmHost
        (tryPlacePass envB 7 MID_PRIORITY NO_MACHINE stB.sorted_machines stB).1 0
        = m ∧
      stB.machine_util m < MAX_TASKS_PER_VM ∧
      (tryPlacePass envB 7 MID_PRIORITY NO_MACHINE stB.sorted_machines stB).1.machine_util m
        = stB.machine_util m + 1) :=
  ⟨(C9_machine_cap envA (Event.taskComplete 0 5) stA).1
      (by unfold UtilCapInv; decide),
   (C9_machine_cap envB (Event.slaWarning 0 0) stB).2.2 7 MID_PRIORITY NO_MACHINE
      stB.sorted_machines
      (tryPlacePass envB 7 MID_PRIORITY NO_MACHINE stB.sorted_machines stB).1 0 rfl⟩

/-! ### Claim C10 -/

/-- C10: the unsigned bookkeeping decrements are guarded and clamp at zero:
a completion for a task the tracker never recorded (including a duplicate
completion) leaves the entire tracker state unchanged; a tracked completion
never increases machine_util or machine_mem_usage of any machine; and the
offload decrement likewise only lowers the origin machine's tracked memory
and does not touch machine_util — so none of these counters can wrap
around. -/
theorem C10_counters_safe (env : Env) (now task : Nat) (s : SchedState) :
    ((∀ v ∈ s.vms, task ∉ s.vm_tasks v) →
      Scheduler.TaskComplete env now task s = s) ∧
    (∀ m, (Scheduler.TaskComplete env now task s).machine_util m
        ≤ s.machine_util m ∧
      (Scheduler.TaskComplete env now task s).machine_mem_usage m
        ≤ s.machine_mem_usage m) ∧
    (∀ m vm i t,
      (offloadEraseCommit env m vm i t s).machine_mem_usage m
        ≤ s.machine_mem_usage m ∧
      (offloadEraseCommit env m vm i t s).machine_util = s.machine_util) := by
  refine ⟨?_, ?_, ?_⟩
  · intro h; exact TaskCompleteGo_noop env task s.vms s h
  · intro m; exact TaskCompleteGo_mono env task s.vms s m
  · intro m vm i t
    constructor
    · simp only [offloadEraseCommit, upd_apply, if_pos rfl]
      exact clampSub_le _ _
    · rfl

theorem C10_witness :
    Scheduler.TaskComplete envA 0 5 stA = stA ∧
    (Scheduler.TaskComplete envA 0 5 stA).machine_util 0 ≤ stA.machine_util 0 :=
  ⟨(C10_counters_safe envA 0 5 stA).1 (by decide),
   ((C10_counters_safe envA 0 5 stA).2.1 0).1⟩

end CloudSim

